import Mathlib

/-!
Verification development for the SystemVerilog elaborator front end
(preprocessor, parser, and the type-parameter elimination rewrite pass).

The preprocessor model follows `src/syntax/pp.rs`.  Tokens are atoms with a
byte span; the lexed token type itself lives in a module that is not part of
the sources under study, so the token kinds are modelled from the
specification: identifiers, name-bearing directive markers, newline and
line-comment markers, delimiters, literals and a catch-all for all other
atoms, which the preprocessor passes through unchanged.

Rust's `Span` is an ordered pair of byte positions; `lo`/`hi` here play the
role of the `start`/`end` fields used by the preprocessor.
-/

namespace SvElaborator

/-- Ordered byte-position pair; `lo` is Rust's `start`, `hi` is Rust's `end`. -/
structure Span where
  lo : Nat
  hi : Nat
deriving DecidableEq, Repr

/-- Token kinds that the preprocessor distinguishes.  Everything that is not
an identifier, a directive, a newline/line-comment marker or an opening
parenthesis is passed through untouched, so all remaining kinds are modelled
by `closeParen`, `intLit` and the catch-all `other`. -/
inductive TokKind where
  | id (name : String)
  | directive (name : String)
  | newLine
  | lineComment
  | openParen
  | closeParen
  | intLit (v : Nat)
  | other (code : Nat)
deriving DecidableEq, Repr

/-- A lexed token: a kind together with its span. -/
structure Tok where
  kind : TokKind
  span : Span
deriving DecidableEq, Repr

/-- Diagnostic severities of the `DiagMgr` interface. -/
inductive Severity where
  | remark
  | warning
  | error
  | fatal
deriving DecidableEq, Repr

/-- A reported diagnostic: severity, message and primary span. -/
structure Diag where
  sev : Severity
  msg : String
  span : Span
deriving DecidableEq, Repr

/-- State of `Preprocessor`: the stack of token deques (Rust field `stacks`; `head` is
the top of the Rust `Vec`), the macro table, the branch stack (`head` is the
top) and the diagnostics reported so far. -/
structure PPState where
  stks : List (List Tok)
  macroDefs : List (String × Span × List Tok)
  branchStack : List (Bool × Bool)
  diags : List Diag
deriving DecidableEq, Repr

/-- Append a diagnostic to the state. -/
def report (st : PPState) (sev : Severity) (msg : String) (sp : Span) : PPState :=
  { st with diags := st.diags ++ [⟨sev, msg, sp⟩] }

/-- First binding of a macro name in the table. -/
def macroFind (defs : List (String × Span × List Tok)) (name : String) :
    Option (Span × List Tok) :=
  match defs with
  | [] => none
  | (n, v) :: rest => if n = name then some v else macroFind rest name

/-- Membership test of the macro table (Rust `HashMap::contains_key`). -/
def macroContains (defs : List (String × Span × List Tok)) (name : String) : Bool :=
  (macroFind defs name).isSome

/-- Insertion into the macro table, replacing any previous binding
(Rust `HashMap::insert`). -/
def macroInsert (defs : List (String × Span × List Tok)) (name : String)
    (v : Span × List Tok) : List (String × Span × List Tok) :=
  (name, v) :: defs.filter (fun e => e.1 ≠ name)

/-- `Preprocessor::is_directive`: the closed set of built-in directive names. -/
def isDirectiveName (name : String) : Bool :=
  match name with
  | "resetall" | "include" | "define" | "undef" | "undefineall" | "ifdef"
  | "else" | "elsif" | "endif" | "ifndef" | "timescale" | "default_nettype"
  | "unconnected_drive" | "nounconnected_drive" | "celldefine"
  | "endcelldefine" | "pragma" | "line" | "__FILE__" | "__LINE__"
  | "begin_keywords" | "end_keywords" => true
  | _ => false

/-- The five branching directive names recognised by `skip_tokens`. -/
def isBranchingDirective (name : String) : Bool :=
  match name with
  | "ifdef" | "ifndef" | "else" | "elsif" | "endif" => true
  | _ => false

/-- `Preprocessor::next_raw`: pop the next token from the top of the stack,
discarding emptied deques; also returns the updated stack. -/
def nextRaw : List (List Tok) → Option Tok × List (List Tok)
  | [] => (none, [])
  | [] :: rest => nextRaw rest
  | (t :: ts) :: rest => (some t, ts :: rest)

/-- `Preprocessor::pushback_raw`: return a token to the head of the top deque. -/
def pushbackRaw (t : Tok) : List (List Tok) → List (List Tok)
  | [] => [[t]]
  | d :: rest => (t :: d) :: rest

/-- Total number of tokens in the stack of deques. -/
def totalToks (stks : List (List Tok)) : Nat :=
  (stks.map List.length).sum

/-- Fueled body of `Preprocessor::read_until_newline`; the fuel supplied by
`readUntilNewline` is always sufficient since every iteration pops a token. -/
def readUntilNewlineF : Nat → List (List Tok) → List Tok × List (List Tok)
  | 0, st => ([], st)
  | n + 1, st =>
    match nextRaw st with
    | (none, st') => ([], st')
    | (some t, st') =>
      match t.kind with
      | .newLine => ([], st')
      | .lineComment => ([], st')
      | _ =>
        let r := readUntilNewlineF n st'
        (t :: r.1, r.2)

/-- `Preprocessor::read_until_newline`: collect tokens up to (and consuming,
but not returning) the next newline or line comment. -/
def readUntilNewline (st : List (List Tok)) : List Tok × List (List Tok) :=
  readUntilNewlineF (totalToks st + 1) st

/-- `Preprocessor::expect_id`: consume one token; yield it only if it is an
identifier. -/
def expectId (st : List (List Tok)) : Option (String × Span) × List (List Tok) :=
  match nextRaw st with
  | (some ⟨.id n, sp⟩, st') => (some (n, sp), st')
  | (_, st') => (none, st')

/-- Fueled body of `Preprocessor::skip_tokens`; the fuel supplied by
`skipTokens` is always sufficient since every iteration pops a token. -/
def skipTokensF : Nat → List (List Tok) → List (List Tok)
  | 0, st => st
  | n + 1, st =>
    match nextRaw st with
    | (none, st') => st'
    | (some t, st') =>
      match t.kind with
      | .directive name =>
        if isBranchingDirective name then pushbackRaw t st' else skipTokensF n st'
      | _ => skipTokensF n st'

/-- `Preprocessor::skip_tokens`: consume tokens until the next branching
directive (which is pushed back) or end of input. -/
def skipTokens (st : List (List Tok)) : List (List Tok) :=
  skipTokensF (totalToks st + 1) st

/-- `Preprocessor::parse_define`.  Returns `none` exactly when the Rust code
panics: after a macro name, `peek_raw().unwrap()` unwraps the front of the
top deque, which fails if the stack `Vec` is empty or its top deque is empty. -/
def parseDefine (sp : Span) (st : PPState) : Option PPState :=
  match expectId st.stks with
  | (none, stks') =>
    let st' := report { st with stks := stks' } .error
      "expected identifier name after `define" sp
    let r := readUntilNewline st'.stks
    some { st' with stks := r.2 }
  | (some (name, nsp), stks') =>
    if isDirectiveName name then
      let st' := report { st with stks := stks' } .error
        "directive name cannot be used as macro names" nsp
      let r := readUntilNewline st'.stks
      some { st' with stks := r.2 }
    else
      match stks' with
      | [] => none
      | d :: rest =>
        match d with
        | [] => none
        | p :: _ =>
          let isParen : Bool :=
            match p.kind with
            | .openParen => p.span.lo == nsp.hi
            | _ => false
          if isParen then
            let r := nextRaw (d :: rest)
            some (report { st with stks := r.2 } .warning
              "function-like macros not yet supported" nsp)
          else
            let r := readUntilNewline (d :: rest)
            let st' := { st with
              stks := r.2
              macroDefs := macroInsert st.macroDefs name (nsp, r.1) }
            match macroFind st.macroDefs name with
            | some (oldSp, _) =>
              some (report (report st' .error "duplicate macro definitions" nsp)
                .remark "previous declared here" oldSp)
            | none => some st'

/-- `Preprocessor::parse_ifdef` (`cond = true` for \`ifdef, `false` for
\`ifndef). -/
def parseIfdef (sp : Span) (cond : Bool) (st : PPState) : PPState :=
  match st.branchStack.head? with
  | some (false, _) =>
    { st with
      branchStack := (false, false) :: st.branchStack
      stks := skipTokens st.stks }
  | _ =>
    let r := expectId st.stks
    let st' :=
      match r.1 with
      | some _ => { st with stks := r.2 }
      | none => report { st with stks := r.2 } .error
          "expected identifier name after `ifdef or `ifndef" sp
    let name := match r.1 with | some (n, _) => n | none => ""
    let taken := macroContains st.macroDefs name == cond
    if taken then
      { st' with branchStack := (true, false) :: st'.branchStack }
    else
      { st' with
        branchStack := (false, false) :: st'.branchStack
        stks := skipTokens st'.stks }

/-- `Preprocessor::parse_elsif`. -/
def parseElsif (sp : Span) (st : PPState) : PPState :=
  match st.branchStack.head? with
  | none => report st .error "`elsif without matching `ifdef or `ifndef" sp
  | some (_, true) =>
    let st' := report st .error "`elsif after an `else" sp
    { st' with stks := skipTokens st'.stks }
  | some (true, false) => { st with stks := skipTokens st.stks }
  | some (false, false) =>
    let bs := st.branchStack.tail
    match bs.head? with
    | some (false, _) =>
      { st with branchStack := (false, false) :: bs, stks := skipTokens st.stks }
    | _ =>
      let r := expectId st.stks
      let st' :=
        match r.1 with
        | some _ => { st with stks := r.2 }
        | none => report { st with stks := r.2 } .error
            "expected identifier name after `ifdef or `ifndef" sp
      let name := match r.1 with | some (n, _) => n | none => ""
      let taken := macroContains st.macroDefs name
      if taken then
        { st' with branchStack := (true, false) :: bs }
      else
        { st' with
          branchStack := (false, false) :: bs
          stks := skipTokens st'.stks }

/-- `Preprocessor::parse_else`. -/
def parseElse (sp : Span) (st : PPState) : PPState :=
  match st.branchStack.head? with
  | none => report st .error "`else without matching `ifdef or `ifndef" sp
  | some (_, true) =>
    let st' := report st .error "`else after an `else" sp
    { st' with stks := skipTokens st'.stks }
  | some (true, false) => { st with stks := skipTokens st.stks }
  | some (false, false) =>
    let bs := st.branchStack.tail
    match bs.head? with
    | some (false, _) =>
      { st with branchStack := (false, true) :: bs, stks := skipTokens st.stks }
    | _ => { st with branchStack := (true, true) :: bs }

/-- `Preprocessor::parse_endif`. -/
def parseEndif (sp : Span) (st : PPState) : PPState :=
  match st.branchStack with
  | [] => report st .error "`endif without matching `ifdef or `ifndef" sp
  | _ :: bs =>
    match bs.head? with
    | some (false, _) => { st with branchStack := bs, stks := skipTokens st.stks }
    | _ => { st with branchStack := bs }

/-- Directive dispatch of `Preprocessor::process` (the Rust `match` on the
directive name, written as the equivalent ordered name-comparison chain).
Returns `none` exactly when the Rust code panics (inside `parse_define`). -/
def processDirective (name : String) (sp : Span) (afterNL : Bool) (st : PPState) :
    Option PPState :=
  if name = "resetall" then
    some (report st .warning "compiler directive not yet supported" sp)
  else if name = "include" then
    some (report
      (if afterNL then st
       else report st .error "`include must be on its own line" sp)
      .warning "compiler directive not yet supported" sp)
  else if name = "define" then parseDefine sp st
  else if name = "undef" then
    some (report st .warning "compiler directive not yet supported" sp)
  else if name = "undefineall" then
    some (report st .warning "compiler directive not yet supported" sp)
  else if name = "ifdef" then some (parseIfdef sp true st)
  else if name = "ifndef" then some (parseIfdef sp false st)
  else if name = "else" then some (parseElse sp st)
  else if name = "elsif" then some (parseElsif sp st)
  else if name = "endif" then some (parseEndif sp st)
  else if name = "timescale" ∨ name = "default_nettype"
      ∨ name = "unconnected_drive" ∨ name = "nounconnected_drive"
      ∨ name = "celldefine" ∨ name = "endcelldefine" ∨ name = "pragma"
      ∨ name = "line" ∨ name = "__FILE__" ∨ name = "__LINE__"
      ∨ name = "begin_keywords" ∨ name = "end_keywords" then
    some (report st .warning "compiler directive not yet supported" sp)
  else
    match macroFind st.macroDefs name with
    | none => some (report st .error ("cannot find macro " ++ name) sp)
    | some (_, body) =>
      some { st with stks := (body.map (fun t => { t with span := sp })) :: st.stks }

/-- Result of one `Preprocessor::process` call: the next processed token (or
`none` at end of input) and the updated state; `panicked` models a Rust
panic, `fuelOut` an execution longer than the supplied fuel. -/
inductive PPRes where
  | ok (tok : Option Tok) (st : PPState)
  | panicked
  | fuelOut
deriving DecidableEq, Repr

/-- `Preprocessor::process`: the directive-interpreting loop, fueled.  One
unit of fuel is spent per loop iteration. -/
def process : Nat → Bool → PPState → PPRes
  | 0, _, _ => .fuelOut
  | n + 1, afterNL, st =>
    match nextRaw st.stks with
    | (none, stks') => .ok none { st with stks := stks' }
    | (some t, stks') =>
      let st' := { st with stks := stks' }
      match t.kind with
      | .newLine => process n true st'
      | .lineComment => process n true st'
      | .directive name =>
        match processDirective name t.span afterNL st' with
        | none => .panicked
        | some st'' => process n false st''
      | _ => .ok (some t) st'

/-- Result of `Preprocessor::all` / the `pp` entry point. -/
inductive AllRes where
  | ok (toks : List Tok) (st : PPState)
  | panicked
  | fuelOut
deriving DecidableEq, Repr

/-- `Preprocessor::all`: drain `process`, dropping newline/line-comment
tokens from the collected output. -/
def allF : Nat → PPState → AllRes
  | 0, _ => .fuelOut
  | n + 1, st =>
    match process (n + 1) false st with
    | .fuelOut => .fuelOut
    | .panicked => .panicked
    | .ok none st' => .ok [] st'
    | .ok (some t) st' =>
      match allF n st' with
      | .ok toks st'' =>
        .ok (match t.kind with
             | .newLine => toks
             | .lineComment => toks
             | _ => t :: toks) st''
      | r => r

/-- Initial preprocessor state over a lexed input (the single pushed deque). -/
def ppInit (input : List Tok) : PPState :=
  ⟨[input], [], [], []⟩

/-- The `pp` entry point: preprocess a lexed token deque, fueled. -/
def pp (fuel : Nat) (input : List Tok) : AllRes :=
  allF fuel (ppInit input)


/-!
Concrete inputs used to settle the preprocessor claims.  Spans are the byte
ranges a lexer would produce for the corresponding source text.
-/

/-- Lexed form of a source that ends right after ``​`define A``. -/
def defineAtEofInput : List Tok :=
  [⟨.directive "define", ⟨0, 7⟩⟩, ⟨.id "A", ⟨8, 9⟩⟩]

/-- Lexed form of ``​`define M(x) y`` followed by a newline and `z`:
a function-like macro definition with the parenthesis contiguous with the
name (`(` starts at byte 9 where `M` ends). -/
def fnLikeDefineInput : List Tok :=
  [⟨.directive "define", ⟨0, 7⟩⟩, ⟨.id "M", ⟨8, 9⟩⟩, ⟨.openParen, ⟨9, 10⟩⟩,
   ⟨.id "x", ⟨10, 11⟩⟩, ⟨.closeParen, ⟨11, 12⟩⟩, ⟨.id "y", ⟨13, 14⟩⟩,
   ⟨.newLine, ⟨14, 15⟩⟩, ⟨.id "z", ⟨16, 17⟩⟩]

/-- Lexed form of a taken conditional chain with two ``​`else`` directives:
``​`define A 1`` / ``​`ifdef A`` / `a` / ``​`else`` / `b` / ``​`else`` / `c` /
``​`endif`` / `d` (with newlines between lines). -/
def doubleElseTakenInput : List Tok :=
  [⟨.directive "define", ⟨0, 7⟩⟩, ⟨.id "A", ⟨8, 9⟩⟩, ⟨.intLit 1, ⟨10, 11⟩⟩,
   ⟨.newLine, ⟨11, 12⟩⟩,
   ⟨.directive "ifdef", ⟨12, 18⟩⟩, ⟨.id "A", ⟨19, 20⟩⟩, ⟨.newLine, ⟨20, 21⟩⟩,
   ⟨.id "a", ⟨21, 22⟩⟩, ⟨.newLine, ⟨22, 23⟩⟩,
   ⟨.directive "else", ⟨23, 28⟩⟩, ⟨.newLine, ⟨28, 29⟩⟩,
   ⟨.id "b", ⟨29, 30⟩⟩, ⟨.newLine, ⟨30, 31⟩⟩,
   ⟨.directive "else", ⟨31, 36⟩⟩, ⟨.newLine, ⟨36, 37⟩⟩,
   ⟨.id "c", ⟨37, 38⟩⟩, ⟨.newLine, ⟨38, 39⟩⟩,
   ⟨.directive "endif", ⟨39, 45⟩⟩, ⟨.newLine, ⟨45, 46⟩⟩,
   ⟨.id "d", ⟨46, 47⟩⟩]

/-- C10: the preprocessor entry point is not total: on an input that ends
immediately after ``​`define`` and its macro-name identifier, `parse_define`
evaluates `peek_raw().unwrap()` with the top deque empty and panics, instead
of returning a token deque. -/
theorem pp_panics_on_define_at_eof : pp 10 defineAtEofInput = .panicked := by
  decide

/-- C3 counterexample: for a function-like ``​`define M(x) y``, the tokens
after the parenthesis are NOT discarded; the claim says none of the tokens
between the parenthesis and the next newline appear in the output, yet `x`,
`)` and `y` are all emitted (followed by `z` from the next line), with only
the "not yet supported" warning reported and `M` left unbound. -/
theorem pp_fn_like_define_keeps_line :
    pp 20 fnLikeDefineInput =
      .ok [⟨.id "x", ⟨10, 11⟩⟩, ⟨.closeParen, ⟨11, 12⟩⟩, ⟨.id "y", ⟨13, 14⟩⟩,
           ⟨.id "z", ⟨16, 17⟩⟩]
        ⟨[], [], [],
         [⟨.warning, "function-like macros not yet supported", ⟨8, 9⟩⟩]⟩ := by
  decide

/-- C3 amended: on a ``​`define`` whose macro name is immediately followed by
a contiguous opening parenthesis, `parse_define` reports the
"function-like macros not yet supported" warning at the name's span, binds
nothing, and discards ONLY the parenthesis token: every following token of
the line stays in the stream (and is processed normally afterwards). -/
theorem parse_define_function_like (spD : Span) (st : PPState) (name : String)
    (nsp : Span) (paren : Tok) (d : List Tok) (rest : List (List Tok))
    (hstk : st.stks = (⟨.id name, nsp⟩ :: paren :: d) :: rest)
    (hname : isDirectiveName name = false)
    (hparen : paren.kind = .openParen)
    (hcont : paren.span.lo = nsp.hi) :
    parseDefine spD st = some { st with
      stks := d :: rest
      diags := st.diags ++
        [⟨.warning, "function-like macros not yet supported", nsp⟩] } := by
  simp [parseDefine, expectId, nextRaw, hstk, hname, hparen, hcont, report]

/-- Witness for `parse_define_function_like` at the concrete state reached
while preprocessing `fnLikeDefineInput`. -/
theorem parse_define_function_like_witness :
    parseDefine ⟨0, 7⟩
      ⟨[[⟨.id "M", ⟨8, 9⟩⟩, ⟨.openParen, ⟨9, 10⟩⟩, ⟨.id "x", ⟨10, 11⟩⟩]], [], [], []⟩ =
      some ⟨[[⟨.id "x", ⟨10, 11⟩⟩]], [], [],
        [⟨.warning, "function-like macros not yet supported", ⟨8, 9⟩⟩]⟩ :=
  parse_define_function_like ⟨0, 7⟩ _ "M" ⟨8, 9⟩ ⟨.openParen, ⟨9, 10⟩⟩
    [⟨.id "x", ⟨10, 11⟩⟩] [] rfl rfl rfl rfl

/-- C4 counterexample: in a chain whose condition was taken
(``​`define A 1`` then ``​`ifdef A``), a second ``​`else`` reports NO error at
all: the run finishes with an empty diagnostic list (and output `a d`),
whereas the claim says any subsequent ``​`else`` reports that the chain was
already closed. -/
theorem pp_double_else_taken_no_error :
    pp 60 doubleElseTakenInput =
      .ok [⟨.id "a", ⟨21, 22⟩⟩, ⟨.id "d", ⟨46, 47⟩⟩]
        ⟨[], [("A", ⟨8, 9⟩, [⟨.intLit 1, ⟨10, 11⟩⟩])], [], []⟩ := by
  decide

/-- C4 amended: `parse_else` replaces the top branch frame with a
`seen_else = true` frame only when the chain was NOT yet taken
(frame `(false, false)`); when the top frame is `(true, false)` — the chain's
condition was taken — the frame is left untouched and tokens are merely
skipped, with no diagnostic, so a later ``​`else``/``​`elsif`` in that chain
reports no error.  The "after an `else" errors fire exactly when the top
frame already has `seen_else = true`. -/
theorem parse_else_frame_behavior (spE : Span) (st : PPState) :
    (∀ b, st.branchStack.head? = some (b, true) →
      parseElse spE st = { st with
        stks := skipTokens st.stks
        diags := st.diags ++ [⟨.error, "`else after an `else", spE⟩] }) ∧
    (st.branchStack.head? = some (true, false) →
      parseElse spE st = { st with stks := skipTokens st.stks }) ∧
    (∀ bs b2, st.branchStack = (false, false) :: bs → bs.head? = some (false, b2) →
      parseElse spE st = { st with
        branchStack := (false, true) :: bs
        stks := skipTokens st.stks }) ∧
    (∀ bs, st.branchStack = (false, false) :: bs →
      (bs.head? = none ∨ ∃ b2, bs.head? = some (true, b2)) →
      parseElse spE st = { st with branchStack := (true, true) :: bs }) ∧
    (∀ b, st.branchStack.head? = some (b, true) →
      parseElsif spE st = { st with
        stks := skipTokens st.stks
        diags := st.diags ++ [⟨.error, "`elsif after an `else", spE⟩] }) := by
  refine ⟨?_, ?_, ?_, ?_, ?_⟩
  · intro b h
    cases b <;> simp [parseElse, h, report]
  · intro h
    simp [parseElse, h]
  · intro bs b2 h h2
    simp [parseElse, h, h2]
  · intro bs h h2
    rcases h2 with h2 | ⟨b2, h2⟩ <;> simp [parseElse, h, h2]
  · intro b h
    cases b <;> simp [parseElsif, h, report]

/-- Witness for `parse_else_frame_behavior`: the taken-chain case leaves the
frame untouched with no diagnostic, and the `seen_else` case errors. -/
theorem parse_else_frame_behavior_witness :
    parseElse ⟨0, 5⟩ ⟨[], [], [(true, false)], []⟩ = ⟨[], [], [(true, false)], []⟩ ∧
    parseElse ⟨0, 5⟩ ⟨[], [], [(false, true)], []⟩ =
      ⟨[], [], [(false, true)],
       [⟨.error, "`else after an `else", ⟨0, 5⟩⟩]⟩ :=
  ⟨(parse_else_frame_behavior ⟨0, 5⟩ ⟨[], [], [(true, false)], []⟩).2.1 rfl,
   (parse_else_frame_behavior ⟨0, 5⟩ ⟨[], [], [(false, true)], []⟩).1 false rfl⟩

/-- Lexed form of ``​`define A `A`` followed by a newline and an invocation
``​`A``: a self-recursive macro. -/
def recMacroInput : List Tok :=
  [⟨.directive "define", ⟨0, 7⟩⟩, ⟨.id "A", ⟨8, 9⟩⟩, ⟨.directive "A", ⟨10, 12⟩⟩,
   ⟨.newLine, ⟨12, 13⟩⟩, ⟨.directive "A", ⟨13, 15⟩⟩]

/-- The macro table after processing the ``​`define`` of `recMacroInput`. -/
def recMacroDefs : List (String × Span × List Tok) :=
  [("A", ⟨8, 9⟩, [⟨.directive "A", ⟨10, 12⟩⟩])]

/-- Helper for the C5 counterexample: once the expansion stack's top deque
holds the cloned self-invocation and `A` is bound to itself, `process` loops
forever (each iteration pops the invocation and pushes an identical clone). -/
theorem process_self_macro_loops (n : Nat) :
    ∀ (junk : List (List Tok)) (b : Bool) (bs : List (Bool × Bool))
      (ds : List Diag),
      process n b ⟨[⟨.directive "A", ⟨13, 15⟩⟩] :: junk, recMacroDefs, bs, ds⟩ =
        .fuelOut := by
  induction n with
  | zero => intro junk b bs ds; rfl
  | succ n ih =>
    intro junk b bs ds
    exact ih ([] :: junk) false bs ds

/-- C5 counterexample: on `recMacroInput` — a macro whose replacement list
invokes the macro itself — the preprocessor never terminates
(`process_self_macro_loops` exhausts every fuel bound, because each
expansion pushes a fresh clone of the self-invocation onto the stack); here
a fuel of 100, far beyond any bound in the five-token input's length, is
still exhausted. -/
theorem pp_self_macro_diverges : pp 100 recMacroInput = .fuelOut := by
  have h100 : (100 : Nat) = 99 + 1 := rfl
  have hp : process (99 + 1) false (ppInit recMacroInput) = .fuelOut :=
    process_self_macro_loops 99 [] false [] []
  rw [pp, h100, allF, hp]
/-!
Model of `src/lowering/type_param_elim.rs`.  The `hier`, `ty` and `expr`
modules of the elaborator are not among the sources under study, so the IR
shape is modelled from the specification: `HierItem` has variants
`Design` (owning a keyed map of instantiations, each with a scope item list),
`Param`, `Type`, `DataPort`, `InterfacePort`, `GenBlock`, `LoopGenBlock`
(a keyed collection of generated blocks) and further variants opaque to the
rewrite, collapsed into `otherItem`.  A `Param`'s declared type is a `Ty`
(with `Ty::Type` the meta-type "type") and its initializer a `Val` (with
`Val::Type` embedding a type value).  `Rc::get_mut(..).unwrap()` uniqueness
is the caller's obligation and has no counterpart on pure values; the
`unreachable!()` hit when a type parameter's initializer is not a type value
is modelled by `none`.
-/

/-- Elaborated types; `Ty.type` is the meta-type `Ty::Type`. -/
inductive Ty where
  | type
  | basic (code : Nat)
deriving DecidableEq, Repr

/-- Elaborated values; `Val.type` embeds a type value (`Val::Type`). -/
inductive Val where
  | type (t : Ty)
  | basic (code : Nat)
deriving DecidableEq, Repr

/-- The fields of a `Param` item used by the pass. -/
structure HParamDecl where
  ty : Ty
  init : Val
  name : String
deriving DecidableEq, Repr

/-- `TypedefDecl`: a local type alias. -/
structure HTypedefDecl where
  ty : Ty
  name : String
deriving DecidableEq, Repr

/-- A hierarchical IR item.  `design` carries the scope item lists of its
keyed instantiations; `loopGenBlock` those of its generated blocks. -/
inductive HierItem where
  | design (instances : List (List HierItem))
  | param (decl : HParamDecl)
  | typeDecl (decl : HTypedefDecl)
  | dataPort (code : Nat)
  | interfacePort (code : Nat)
  | genBlock (items : List HierItem)
  | loopGenBlock (instances : List (List HierItem))
  | otherItem (code : Nat)
deriving Repr

/-- The destination of one scope item in the partition loop of
`visit_instantiation`, together with the item pushed there. -/
inductive BucketItem where
  | toParams (it : HierItem)
  | toTypeParams (it : HierItem)
  | toPorts (it : HierItem)
  | toOthers (it : HierItem)
deriving Repr

/-- The `Param` arm of the partition loop: a `Param` of meta-type `type`
becomes a `Type` item whose body is the initializer's embedded type value
(`unreachable!()` — modelled by `none` — otherwise); any other `Param` goes
to the `params` bucket unchanged. -/
def classifyParam (decl : HParamDecl) : Option BucketItem :=
  if decl.ty = .type then
    match decl.init with
    | .type t => some (.toTypeParams (.typeDecl ⟨t, decl.name⟩))
    | _ => none
  else some (.toParams (.param decl))

mutual

/-- `TypeParamEliminator::visit_item`.  `Design` recurses into each
instantiation via `visit_instantiation`; `GenBlock` and `LoopGenBlock`
recurse into their scope items via `visit_item`; all other items are left
unchanged. -/
def visit_item : HierItem → Option HierItem
  | .design insts =>
    match visitInstList insts with
    | some l => some (.design l)
    | none => none
  | .genBlock items =>
    match visitItemList items with
    | some l => some (.genBlock l)
    | none => none
  | .loopGenBlock insts =>
    match visitGenList insts with
    | some l => some (.loopGenBlock l)
    | none => none
  | it => some it

/-- Iteration of `visit_item` over a scope's items (the `GenBlock` /
`LoopGenBlock` / compilation-unit loops). -/
def visitItemList : List HierItem → Option (List HierItem)
  | [] => some []
  | i :: rest =>
    match visit_item i, visitItemList rest with
    | some a, some b => some (a :: b)
    | _, _ => none

/-- Iteration of `visit_instantiation` over a `Design`'s instance map. -/
def visitInstList : List (List HierItem) → Option (List (List HierItem))
  | [] => some []
  | s :: rest =>
    match visit_instantiation s, visitInstList rest with
    | some a, some b => some (a :: b)
    | _, _ => none

/-- Iteration of the `LoopGenBlock` body: each generated block's scope items
are visited with `visit_item`. -/
def visitGenList : List (List HierItem) → Option (List (List HierItem))
  | [] => some []
  | s :: rest =>
    match visitItemList s, visitGenList rest with
    | some a, some b => some (a :: b)
    | _, _ => none

/-- One iteration of the partition loop of `visit_instantiation`: decide the
bucket of a scope item, visiting `others` items recursively. -/
def classifyItem : HierItem → Option BucketItem
  | .param decl => classifyParam decl
  | .dataPort c => some (.toPorts (.dataPort c))
  | .interfacePort c => some (.toPorts (.interfacePort c))
  | it =>
    match visit_item it with
    | some it2 => some (.toOthers it2)
    | none => none

/-- The partition loop inside `visit_instantiation`: split the items into
the `params`, `type_params`, `ports` and `others` buckets, preserving order
within each bucket. -/
def partitionItems : List HierItem →
    Option (List HierItem × List HierItem × List HierItem × List HierItem)
  | [] => some ([], [], [], [])
  | item :: rest =>
    match classifyItem item, partitionItems rest with
    | some b, some (ps, tps, pos, os) =>
      some (match b with
            | .toParams it => (it :: ps, tps, pos, os)
            | .toTypeParams it => (ps, it :: tps, pos, os)
            | .toPorts it => (ps, tps, it :: pos, os)
            | .toOthers it => (ps, tps, pos, it :: os))
    | _, _ => none

/-- `TypeParamEliminator::visit_instantiation`: partition the scope items
and rebuild them as `params ++ ports ++ type_params ++ others`. -/
def visit_instantiation (items : List HierItem) : Option (List HierItem) :=
  match partitionItems items with
  | some (ps, tps, pos, os) => some (ps ++ pos ++ tps ++ os)
  | none => none

end

/-- `type_param_elim`: visit every item of every compilation unit. -/
def type_param_elim (source : List (List HierItem)) :
    Option (List (List HierItem)) :=
  visitGenList source

/-- Reference classifier: a `Param` item the pass keeps (declared type not
the meta-type `type`). -/
def isKeptParam : HierItem → Bool
  | .param ⟨.type, _, _⟩ => false
  | .param _ => true
  | _ => false

/-- Reference classifier: a port item (`DataPort` or `InterfacePort`). -/
def isPortItem : HierItem → Bool
  | .dataPort _ => true
  | .interfacePort _ => true
  | _ => false

/-- Reference classifier: any `Param` item. -/
def isParamItem : HierItem → Bool
  | .param _ => true
  | _ => false

/-- Reference classifier: a `Param` item whose declared type is the
meta-type `type`. -/
def itemIsTypeParam : HierItem → Bool
  | .param ⟨.type, _, _⟩ => true
  | _ => false

/-- Reference elimination of a single type parameter: the synthesized `Type`
item whose body is the initializer's embedded type value. -/
def elimTypeParam : HierItem → Option HierItem
  | .param ⟨.type, .type t, name⟩ => some (.typeDecl ⟨t, name⟩)
  | _ => none

/-- Reference classifier: items going to the `others` bucket. -/
def isOtherItem (it : HierItem) : Bool :=
  !(isParamItem it || isPortItem it)

/-- Inversion: an item classified into the `params` bucket is an unchanged
kept `Param`. -/
theorem classifyItem_toParams {item it2 : HierItem}
    (h : classifyItem item = some (.toParams it2)) :
    it2 = item ∧ isKeptParam item = true ∧ isPortItem item = false ∧
      elimTypeParam item = none ∧ isOtherItem item = false := by
  cases item with
  | param decl =>
    obtain ⟨ty, ini, name⟩ := decl
    cases ty with
    | type =>
      cases ini <;> simp [classifyItem, classifyParam] at h
    | basic c =>
      simp [classifyItem, classifyParam] at h
      simp [← h, isKeptParam, isPortItem, elimTypeParam, isOtherItem, isParamItem]
  | design insts =>
    rw [classifyItem] at h
    · cases hv : visit_item (HierItem.design insts) <;> rw [hv] at h <;> simp at h
    all_goals simp
  | typeDecl d =>
    rw [classifyItem] at h
    · cases hv : visit_item (HierItem.typeDecl d) <;> rw [hv] at h <;> simp at h
    all_goals simp
  | genBlock l =>
    rw [classifyItem] at h
    · cases hv : visit_item (HierItem.genBlock l) <;> rw [hv] at h <;> simp at h
    all_goals simp
  | loopGenBlock l =>
    rw [classifyItem] at h
    · cases hv : visit_item (HierItem.loopGenBlock l) <;> rw [hv] at h <;> simp at h
    all_goals simp
  | otherItem c =>
    rw [classifyItem] at h
    · cases hv : visit_item (HierItem.otherItem c) <;> rw [hv] at h <;> simp at h
    all_goals simp
  | dataPort c => simp [classifyItem] at h
  | interfacePort c => simp [classifyItem] at h

/-- Inversion: an item classified into the `type_params` bucket is a type
parameter, and the pushed item is its `elimTypeParam` image. -/
theorem classifyItem_toTypeParams {item it2 : HierItem}
    (h : classifyItem item = some (.toTypeParams it2)) :
    elimTypeParam item = some it2 ∧ isKeptParam item = false ∧
      isPortItem item = false ∧ isOtherItem item = false := by
  cases item with
  | param decl =>
    obtain ⟨ty, ini, name⟩ := decl
    cases ty with
    | type =>
      cases ini with
      | type t =>
        simp [classifyItem, classifyParam] at h
        simp [← h, isKeptParam, isPortItem, elimTypeParam, isOtherItem, isParamItem]
      | basic v => simp [classifyItem, classifyParam] at h
    | basic c => simp [classifyItem, classifyParam] at h
  | design insts =>
    rw [classifyItem] at h
    · cases hv : visit_item (HierItem.design insts) <;> rw [hv] at h <;> simp at h
    all_goals simp
  | typeDecl d =>
    rw [classifyItem] at h
    · cases hv : visit_item (HierItem.typeDecl d) <;> rw [hv] at h <;> simp at h
    all_goals simp
  | genBlock l =>
    rw [classifyItem] at h
    · cases hv : visit_item (HierItem.genBlock l) <;> rw [hv] at h <;> simp at h
    all_goals simp
  | loopGenBlock l =>
    rw [classifyItem] at h
    · cases hv : visit_item (HierItem.loopGenBlock l) <;> rw [hv] at h <;> simp at h
    all_goals simp
  | otherItem c =>
    rw [classifyItem] at h
    · cases hv : visit_item (HierItem.otherItem c) <;> rw [hv] at h <;> simp at h
    all_goals simp
  | dataPort c => simp [classifyItem] at h
  | interfacePort c => simp [classifyItem] at h

/-- Inversion: an item classified into the `ports` bucket is an unchanged
port item. -/
theorem classifyItem_toPorts {item it2 : HierItem}
    (h : classifyItem item = some (.toPorts it2)) :
    it2 = item ∧ isPortItem item = true ∧ isKeptParam item = false ∧
      elimTypeParam item = none ∧ isOtherItem item = false := by
  cases item with
  | param decl =>
    obtain ⟨ty, ini, name⟩ := decl
    cases ty with
    | type => cases ini <;> simp [classifyItem, classifyParam] at h
    | basic c => simp [classifyItem, classifyParam] at h
  | dataPort c =>
    simp [classifyItem] at h
    simp [← h, isKeptParam, isPortItem, elimTypeParam, isOtherItem, isParamItem]
  | interfacePort c =>
    simp [classifyItem] at h
    simp [← h, isKeptParam, isPortItem, elimTypeParam, isOtherItem, isParamItem]
  | design insts =>
    rw [classifyItem] at h
    · cases hv : visit_item (HierItem.design insts) <;> rw [hv] at h <;> simp at h
    all_goals simp
  | typeDecl d =>
    rw [classifyItem] at h
    · cases hv : visit_item (HierItem.typeDecl d) <;> rw [hv] at h <;> simp at h
    all_goals simp
  | genBlock l =>
    rw [classifyItem] at h
    · cases hv : visit_item (HierItem.genBlock l) <;> rw [hv] at h <;> simp at h
    all_goals simp
  | loopGenBlock l =>
    rw [classifyItem] at h
    · cases hv : visit_item (HierItem.loopGenBlock l) <;> rw [hv] at h <;> simp at h
    all_goals simp
  | otherItem c =>
    rw [classifyItem] at h
    · cases hv : visit_item (HierItem.otherItem c) <;> rw [hv] at h <;> simp at h
    all_goals simp

/-- Inversion: an item classified into the `others` bucket is a non-param
non-port item and the pushed item is its `visit_item` image. -/
theorem classifyItem_toOthers {item it2 : HierItem}
    (h : classifyItem item = some (.toOthers it2)) :
    visit_item item = some it2 ∧ isKeptParam item = false ∧
      isPortItem item = false ∧ elimTypeParam item = none ∧
      isOtherItem item = true := by
  cases item with
  | param decl =>
    obtain ⟨ty, ini, name⟩ := decl
    cases ty with
    | type => cases ini <;> simp [classifyItem, classifyParam] at h
    | basic c => simp [classifyItem, classifyParam] at h
  | dataPort c => simp [classifyItem] at h
  | interfacePort c => simp [classifyItem] at h
  | design insts =>
    rw [classifyItem] at h
    · cases hv : visit_item (HierItem.design insts) <;> rw [hv] at h
      · simp at h
      · simp at h
        exact ⟨by rw [h], by simp [isKeptParam, isPortItem, elimTypeParam, isOtherItem, isParamItem]⟩
    all_goals simp
  | typeDecl d =>
    rw [classifyItem] at h
    · cases hv : visit_item (HierItem.typeDecl d) <;> rw [hv] at h
      · simp at h
      · simp at h
        exact ⟨by rw [h], by simp [isKeptParam, isPortItem, elimTypeParam, isOtherItem, isParamItem]⟩
    all_goals simp
  | genBlock l =>
    rw [classifyItem] at h
    · cases hv : visit_item (HierItem.genBlock l) <;> rw [hv] at h
      · simp at h
      · simp at h
        exact ⟨by rw [h], by simp [isKeptParam, isPortItem, elimTypeParam, isOtherItem, isParamItem]⟩
    all_goals simp
  | loopGenBlock l =>
    rw [classifyItem] at h
    · cases hv : visit_item (HierItem.loopGenBlock l) <;> rw [hv] at h
      · simp at h
      · simp at h
        exact ⟨by rw [h], by simp [isKeptParam, isPortItem, elimTypeParam, isOtherItem, isParamItem]⟩
    all_goals simp
  | otherItem c =>
    rw [classifyItem] at h
    · cases hv : visit_item (HierItem.otherItem c) <;> rw [hv] at h
      · simp at h
      · simp at h
        exact ⟨by rw [h], by simp [isKeptParam, isPortItem, elimTypeParam, isOtherItem, isParamItem]⟩
    all_goals simp

/-- The partition loop computes, bucket by bucket, the order-preserving
filters of the input scope: kept `Param`s, synthesized `Type`s, ports, and
the recursively visited remaining items. -/
theorem partitionItems_char (items : List HierItem) :
    ∀ ps tps pos os,
      partitionItems items = some (ps, tps, pos, os) →
      ps = items.filter isKeptParam ∧
      tps = items.filterMap elimTypeParam ∧
      pos = items.filter isPortItem ∧
      visitItemList (items.filter isOtherItem) = some os := by
  induction items with
  | nil =>
    intro ps tps pos os h
    simp [partitionItems] at h
    simp [h.1, h.2.1, h.2.2.1, h.2.2.2, visitItemList]
  | cons item rest ih =>
    intro ps tps pos os h
    rw [partitionItems] at h
    cases hc : classifyItem item <;> rw [hc] at h
    · exact absurd h (by simp)
    case some b =>
      cases hp : partitionItems rest <;> rw [hp] at h
      · exact absurd h (by simp)
      case some q =>
        obtain ⟨ps1, tps1, pos1, os1⟩ := q
        obtain ⟨e1, e2, e3, e4⟩ := ih ps1 tps1 pos1 os1 hp
        cases b with
        | toParams it2 =>
          obtain ⟨q1, q2, q3, q4, q5⟩ := classifyItem_toParams hc
          simp at h
          obtain ⟨h1, h2, h3, h4⟩ := h
          refine ⟨?_, ?_, ?_, ?_⟩
          · simp [← h1, e1, List.filter_cons, q1, q2]
          · simp [← h2, e2, List.filterMap_cons, q4]
          · simp [← h3, e3, List.filter_cons, q3]
          · simp [← h4, e4, List.filter_cons, q5]
        | toTypeParams it2 =>
          obtain ⟨q1, q2, q3, q4⟩ := classifyItem_toTypeParams hc
          simp at h
          obtain ⟨h1, h2, h3, h4⟩ := h
          refine ⟨?_, ?_, ?_, ?_⟩
          · simp [← h1, e1, List.filter_cons, q2]
          · simp [← h2, e2, List.filterMap_cons, q1]
          · simp [← h3, e3, List.filter_cons, q3]
          · simp [← h4, e4, List.filter_cons, q4]
        | toPorts it2 =>
          obtain ⟨q1, q2, q3, q4, q5⟩ := classifyItem_toPorts hc
          simp at h
          obtain ⟨h1, h2, h3, h4⟩ := h
          refine ⟨?_, ?_, ?_, ?_⟩
          · simp [← h1, e1, List.filter_cons, q3]
          · simp [← h2, e2, List.filterMap_cons, q4]
          · simp [← h3, e3, List.filter_cons, q1, q2]
          · simp [← h4, e4, List.filter_cons, q5]
        | toOthers it2 =>
          obtain ⟨q1, q2, q3, q4, q5⟩ := classifyItem_toOthers hc
          simp at h
          obtain ⟨h1, h2, h3, h4⟩ := h
          refine ⟨?_, ?_, ?_, ?_⟩
          · simp [← h1, e1, List.filter_cons, q2]
          · simp [← h2, e2, List.filterMap_cons, q4]
          · simp [← h3, e3, List.filter_cons, q3]
          · rw [← h4, List.filter_cons]
            simp only [q5, if_pos]
            rw [visitItemList, q1, e4]

/-- C1: for every `DesignInstantiation` scope, a successful
`visit_instantiation` rewrites the item list into exactly
`params ++ ports ++ type_params ++ others`: the kept (non-type) `Param`s,
then the `DataPort`/`InterfacePort` items, then the `Type` items synthesized
from the eliminated type parameters, then the recursively visited remaining
items — each group an order-preserving filter of the input list. -/
theorem visit_instantiation_order (items out : List HierItem)
    (h : visit_instantiation items = some out) :
    ∃ os, visitItemList (items.filter isOtherItem) = some os ∧
      out = items.filter isKeptParam ++ items.filter isPortItem ++
        items.filterMap elimTypeParam ++ os := by
  rw [visit_instantiation] at h
  cases hp : partitionItems items <;> rw [hp] at h
  · simp at h
  case some q =>
    obtain ⟨ps, tps, pos, os⟩ := q
    simp at h
    obtain ⟨e1, e2, e3, e4⟩ := partitionItems_char items ps tps pos os hp
    refine ⟨os, e4, ?_⟩
    rw [← h, e1, e2, e3]
    simp

/-- The scenario-S5 instantiation scope:
`[Param(T: type = logic), DataPort(x), Param(N: int = 4), OtherItem]`. -/
def s5Items : List HierItem :=
  [.param ⟨Ty.type, Val.type (.basic 0), "T"⟩, .dataPort 0,
   .param ⟨.basic 1, .basic 4, "N"⟩, .otherItem 0]

/-- The rewritten S5 scope: `[Param(N), DataPort(x), Type(T=logic), Other]`. -/
def s5Result : List HierItem :=
  [.param ⟨.basic 1, .basic 4, "N"⟩, .dataPort 0,
   .typeDecl ⟨.basic 0, "T"⟩, .otherItem 0]

/-- Witness for `visit_instantiation_order` on the S5 scope. -/
theorem visit_instantiation_order_witness :
    ∃ os, visitItemList (s5Items.filter isOtherItem) = some os ∧
      s5Result = s5Items.filter isKeptParam ++ s5Items.filter isPortItem ++
        s5Items.filterMap elimTypeParam ++ os :=
  visit_instantiation_order s5Items s5Result
    (by simp [visit_instantiation, partitionItems, classifyItem, classifyParam,
              visit_item, s5Items, s5Result])

mutual

/-- Deep search for a `Param` item of meta-type `type` anywhere in an item. -/
def itemHasTypeParam : HierItem → Bool
  | .param ⟨.type, _, _⟩ => true
  | .design l => scopesHaveTypeParam l
  | .genBlock l => itemsHaveTypeParam l
  | .loopGenBlock l => scopesHaveTypeParam l
  | _ => false

/-- Deep search over an item list. -/
def itemsHaveTypeParam : List HierItem → Bool
  | [] => false
  | i :: r => itemHasTypeParam i || itemsHaveTypeParam r

/-- Deep search over a list of scopes. -/
def scopesHaveTypeParam : List (List HierItem) → Bool
  | [] => false
  | s :: r => itemsHaveTypeParam s || scopesHaveTypeParam r

end

/-- An IR whose only compilation-unit item is a `GenBlock` holding a type
parameter `T`. -/
def genBlockTypeParamIR : List (List HierItem) :=
  [[.genBlock [.param ⟨Ty.type, Val.type (.basic 0), "T"⟩]]]

/-- C6 counterexample: `type_param_elim` leaves a type-valued `Param` that
sits directly inside a `GenBlock` scope untouched — the output IR equals the
input and still contains a `Param` of meta-type `type` (the claim says no
such `Param` appears anywhere in the output, including `GenBlock` scopes).
`visit_item` recurses into `GenBlock`s but only re-visits their items; only
`visit_instantiation`, applied to `DesignInstantiation` scopes, eliminates
type parameters. -/
theorem type_param_elim_keeps_genblock_type_param :
    type_param_elim genBlockTypeParamIR = some genBlockTypeParamIR ∧
    scopesHaveTypeParam genBlockTypeParamIR = true := by
  constructor
  · simp [type_param_elim, genBlockTypeParamIR, visitGenList, visitItemList,
          visit_item]
  · simp [genBlockTypeParamIR, scopesHaveTypeParam, itemsHaveTypeParam,
          itemHasTypeParam]

/-- Every element of a successful `visitItemList` output is the
`visit_item` image of an input element. -/
theorem visitItemList_mem {l : List HierItem} :
    ∀ {l2 : List HierItem}, visitItemList l = some l2 →
      ∀ o ∈ l2, ∃ i ∈ l, visit_item i = some o := by
  induction l with
  | nil =>
    intro l2 h o ho
    simp [visitItemList] at h
    subst h
    simp at ho
  | cons i rest ih =>
    intro l2 h o ho
    rw [visitItemList] at h
    cases ha : visit_item i <;> rw [ha] at h
    · simp at h
    case some a =>
      cases hr : visitItemList rest <;> rw [hr] at h
      · simp at h
      case some r2 =>
        simp at h
        subst h
        rcases List.mem_cons.mp ho with rfl | ho2
        · exact ⟨i, List.mem_cons_self i rest, ha⟩
        · obtain ⟨j, hj, hv⟩ := ih hr o ho2
          exact ⟨j, List.mem_cons_of_mem i hj, hv⟩

/-- `visit_item` preserves the outermost constructor, hence all shallow
classifications of an item. -/
theorem visit_item_shape {i o : HierItem} (h : visit_item i = some o) :
    itemIsTypeParam o = itemIsTypeParam i ∧ isParamItem o = isParamItem i ∧
      isPortItem o = isPortItem i ∧ isKeptParam o = isKeptParam i := by
  cases i with
  | design insts =>
    rw [visit_item] at h
    cases hv : visitInstList insts <;> rw [hv] at h
    · simp at h
    · simp at h
      simp [← h, itemIsTypeParam, isParamItem, isPortItem, isKeptParam]
  | genBlock l =>
    rw [visit_item] at h
    cases hv : visitItemList l <;> rw [hv] at h
    · simp at h
    · simp at h
      simp [← h, itemIsTypeParam, isParamItem, isPortItem, isKeptParam]
  | loopGenBlock l =>
    rw [visit_item] at h
    cases hv : visitGenList l <;> rw [hv] at h
    · simp at h
    · simp at h
      simp [← h, itemIsTypeParam, isParamItem, isPortItem, isKeptParam]
  | param decl =>
    have h2 : o = .param decl := by
      rw [visit_item] at h
      · exact (Option.some_inj.mp h).symm
      all_goals simp
    simp [h2]
  | typeDecl d =>
    have h2 : o = .typeDecl d := by
      rw [visit_item] at h
      · exact (Option.some_inj.mp h).symm
      all_goals simp
    simp [h2]
  | dataPort c =>
    have h2 : o = .dataPort c := by
      rw [visit_item] at h
      · exact (Option.some_inj.mp h).symm
      all_goals simp
    simp [h2]
  | interfacePort c =>
    have h2 : o = .interfacePort c := by
      rw [visit_item] at h
      · exact (Option.some_inj.mp h).symm
      all_goals simp
    simp [h2]
  | otherItem c =>
    have h2 : o = .otherItem c := by
      rw [visit_item] at h
      · exact (Option.some_inj.mp h).symm
      all_goals simp
    simp [h2]

/-- A kept `Param` is not a type parameter. -/
theorem isKeptParam_not_type {it : HierItem} (h : isKeptParam it = true) :
    itemIsTypeParam it = false := by
  cases it with
  | param decl =>
    obtain ⟨ty, ini, name⟩ := decl
    cases ty with
    | type => simp [isKeptParam] at h
    | basic c => simp [itemIsTypeParam]
  | design l => simp [itemIsTypeParam]
  | typeDecl d => simp [itemIsTypeParam]
  | dataPort c => simp [itemIsTypeParam]
  | interfacePort c => simp [itemIsTypeParam]
  | genBlock l => simp [itemIsTypeParam]
  | loopGenBlock l => simp [itemIsTypeParam]
  | otherItem c => simp [itemIsTypeParam]

/-- Only `Param` items are type parameters. -/
theorem itemIsTypeParam_of_param {it : HierItem}
    (h : itemIsTypeParam it = true) : isParamItem it = true := by
  cases it with
  | param decl => simp [isParamItem]
  | design l => simp [itemIsTypeParam] at h
  | typeDecl d => simp [itemIsTypeParam] at h
  | dataPort c => simp [itemIsTypeParam] at h
  | interfacePort c => simp [itemIsTypeParam] at h
  | genBlock l => simp [itemIsTypeParam] at h
  | loopGenBlock l => simp [itemIsTypeParam] at h
  | otherItem c => simp [itemIsTypeParam] at h

/-- The synthesized replacement of a type parameter is a `Type` item. -/
theorem elimTypeParam_is_typeDecl {i o : HierItem}
    (h : elimTypeParam i = some o) : ∃ d, o = .typeDecl d := by
  cases i with
  | param decl =>
    obtain ⟨ty, ini, name⟩ := decl
    cases ty with
    | type =>
      cases ini with
      | type t =>
        simp [elimTypeParam] at h
        exact ⟨⟨t, name⟩, h.symm⟩
      | basic v => simp [elimTypeParam] at h
    | basic c => simp [elimTypeParam] at h
  | design l => simp [elimTypeParam] at h
  | typeDecl d => simp [elimTypeParam] at h
  | dataPort c => simp [elimTypeParam] at h
  | interfacePort c => simp [elimTypeParam] at h
  | genBlock l => simp [elimTypeParam] at h
  | loopGenBlock l => simp [elimTypeParam] at h
  | otherItem c => simp [elimTypeParam] at h

/-- C6 amended: a successful `visit_instantiation` — the rewrite applied to
a `DesignInstantiation` scope — leaves no type-valued `Param` among the
scope's own items, and the synthesized `Type` items (body taken from each
eliminated `Param`'s initializer) all appear in the output.  Type-valued
`Param`s living directly inside `GenBlock`/`LoopGenBlock` scopes are outside
the elimination and survive (see the counterexample). -/
theorem visit_instantiation_no_type_params (items out : List HierItem)
    (h : visit_instantiation items = some out) :
    (∀ it ∈ out, itemIsTypeParam it = false) ∧
      (items.filterMap elimTypeParam).Sublist out := by
  obtain ⟨os, hos, hout⟩ := visit_instantiation_order items out h
  constructor
  · intro it hit
    rw [hout] at hit
    simp only [List.append_assoc, List.mem_append] at hit
    rcases hit with h1 | h2 | h3 | h4
    · exact isKeptParam_not_type (List.of_mem_filter h1)
    · have hp := List.of_mem_filter h2
      by_contra hbad
      have := itemIsTypeParam_of_param (by simpa using hbad)
      cases it <;> simp_all [isPortItem, isParamItem]
    · obtain ⟨i, hi, he⟩ := List.mem_filterMap.mp h3
      obtain ⟨d, rfl⟩ := elimTypeParam_is_typeDecl he
      simp [itemIsTypeParam]
    · obtain ⟨i, hi, hv⟩ := visitItemList_mem hos it h4
      have hsh := visit_item_shape hv
      have hio : isOtherItem i = true := List.of_mem_filter hi
      have hparam : isParamItem i = false := by
        simp [isOtherItem] at hio
        exact hio.1
      rw [hsh.1]
      by_contra hbad
      have := itemIsTypeParam_of_param (by simpa using hbad)
      rw [this] at hparam
      exact absurd hparam (by simp)
  · rw [hout]
    have s1 : (items.filterMap elimTypeParam).Sublist
        (items.filterMap elimTypeParam ++ os) := List.sublist_append_left _ _
    have s2 : (items.filterMap elimTypeParam ++ os).Sublist
        (items.filter isPortItem ++ (items.filterMap elimTypeParam ++ os)) :=
      List.sublist_append_right _ _
    have s3 := s1.trans s2
    have s4 : (items.filter isPortItem ++ (items.filterMap elimTypeParam ++ os)).Sublist
        (items.filter isKeptParam ++
          (items.filter isPortItem ++ (items.filterMap elimTypeParam ++ os))) :=
      List.sublist_append_right _ _
    simpa using s3.trans s4

/-- Witness for `visit_instantiation_no_type_params` on the S5 scope. -/
theorem visit_instantiation_no_type_params_witness :
    (∀ it ∈ s5Result, itemIsTypeParam it = false) ∧
      (s5Items.filterMap elimTypeParam).Sublist s5Result :=
  visit_instantiation_no_type_params s5Items s5Result
    (by simp [visit_instantiation, partitionItems, classifyItem, classifyParam,
              visit_item, s5Items, s5Result])

/-- The partition loop distributes over list append, bucket by bucket. -/
theorem partitionItems_append {b : List HierItem}
    {ps2 tps2 pos2 os2 : List HierItem}
    (hb : partitionItems b = some (ps2, tps2, pos2, os2)) :
    ∀ {a : List HierItem} {ps1 tps1 pos1 os1 : List HierItem},
      partitionItems a = some (ps1, tps1, pos1, os1) →
      partitionItems (a ++ b) =
        some (ps1 ++ ps2, tps1 ++ tps2, pos1 ++ pos2, os1 ++ os2) := by
  intro a
  induction a with
  | nil =>
    intro ps1 tps1 pos1 os1 ha
    simp [partitionItems] at ha
    obtain ⟨rfl, rfl, rfl, rfl⟩ := ha
    simpa using hb
  | cons i rest ih =>
    intro ps1 tps1 pos1 os1 ha
    rw [partitionItems] at ha
    cases hc : classifyItem i <;> rw [hc] at ha
    · simp at ha
    case some bk =>
      cases hp : partitionItems rest <;> rw [hp] at ha
      · simp at ha
      case some q =>
        obtain ⟨p, t, po, o⟩ := q
        have hr := ih hp
        simp at ha
        rw [List.cons_append, partitionItems, hc, hr]
        cases bk <;> simp_all [← List.cons_append]

/-- A kept `Param` goes to the `params` bucket unchanged. -/
theorem classifyItem_of_kept {it : HierItem} (h : isKeptParam it = true) :
    classifyItem it = some (.toParams it) := by
  cases it with
  | param decl =>
    obtain ⟨ty, ini, name⟩ := decl
    cases ty with
    | type => simp [isKeptParam] at h
    | basic c => simp [classifyItem, classifyParam]
  | design l => simp [isKeptParam] at h
  | typeDecl d => simp [isKeptParam] at h
  | dataPort c => simp [isKeptParam] at h
  | interfacePort c => simp [isKeptParam] at h
  | genBlock l => simp [isKeptParam] at h
  | loopGenBlock l => simp [isKeptParam] at h
  | otherItem c => simp [isKeptParam] at h

/-- A port item goes to the `ports` bucket unchanged. -/
theorem classifyItem_of_port {it : HierItem} (h : isPortItem it = true) :
    classifyItem it = some (.toPorts it) := by
  cases it with
  | dataPort c => simp [classifyItem]
  | interfacePort c => simp [classifyItem]
  | param decl => simp [isPortItem] at h
  | design l => simp [isPortItem] at h
  | typeDecl d => simp [isPortItem] at h
  | genBlock l => simp [isPortItem] at h
  | loopGenBlock l => simp [isPortItem] at h
  | otherItem c => simp [isPortItem] at h

/-- A non-param non-port item fixed by `visit_item` goes to the `others`
bucket unchanged. -/
theorem classifyItem_of_fixed {it : HierItem} (h1 : isParamItem it = false)
    (h2 : isPortItem it = false) (h3 : visit_item it = some it) :
    classifyItem it = some (.toOthers it) := by
  cases it with
  | param decl => simp [isParamItem] at h1
  | dataPort c => simp [isPortItem] at h2
  | interfacePort c => simp [isPortItem] at h2
  | design l =>
    rw [classifyItem]
    · rw [h3]
    all_goals simp
  | typeDecl d =>
    rw [classifyItem]
    · rw [h3]
    all_goals simp
  | genBlock l =>
    rw [classifyItem]
    · rw [h3]
    all_goals simp
  | loopGenBlock l =>
    rw [classifyItem]
    · rw [h3]
    all_goals simp
  | otherItem c =>
    rw [classifyItem]
    · rw [h3]
    all_goals simp

/-- Partitioning a list of kept `Param`s yields only the `params` bucket. -/
theorem partitionItems_of_kept {l : List HierItem}
    (h : ∀ it ∈ l, isKeptParam it = true) :
    partitionItems l = some (l, [], [], []) := by
  induction l with
  | nil => simp [partitionItems]
  | cons i rest ih =>
    rw [partitionItems, classifyItem_of_kept (h i (by simp)),
      ih (fun it hit => h it (List.mem_cons_of_mem i hit))]

/-- Partitioning a list of port items yields only the `ports` bucket. -/
theorem partitionItems_of_ports {l : List HierItem}
    (h : ∀ it ∈ l, isPortItem it = true) :
    partitionItems l = some ([], [], l, []) := by
  induction l with
  | nil => simp [partitionItems]
  | cons i rest ih =>
    rw [partitionItems, classifyItem_of_port (h i (by simp)),
      ih (fun it hit => h it (List.mem_cons_of_mem i hit))]

/-- Partitioning a list of non-param non-port items fixed by `visit_item`
yields only the `others` bucket. -/
theorem partitionItems_of_fixed {l : List HierItem}
    (h : ∀ it ∈ l, isParamItem it = false ∧ isPortItem it = false ∧
      visit_item it = some it) :
    partitionItems l = some ([], [], [], l) := by
  induction l with
  | nil => simp [partitionItems]
  | cons i rest ih =>
    obtain ⟨h1, h2, h3⟩ := h i (by simp)
    rw [partitionItems, classifyItem_of_fixed h1 h2 h3,
      ih (fun it hit => h it (List.mem_cons_of_mem i hit))]

/-- Strong-induction payload for idempotence: every function of the mutual
`visit` family is the identity on its own successful outputs. -/
theorem visit_idem_aux : ∀ n : Nat,
    (∀ i : HierItem, sizeOf i ≤ n → ∀ o, visit_item i = some o →
      visit_item o = some o) ∧
    (∀ l : List HierItem, sizeOf l ≤ n → ∀ o, visitItemList l = some o →
      visitItemList o = some o) ∧
    (∀ l : List (List HierItem), sizeOf l ≤ n → ∀ o, visitGenList l = some o →
      visitGenList o = some o) ∧
    (∀ l : List (List HierItem), sizeOf l ≤ n → ∀ o, visitInstList l = some o →
      visitInstList o = some o) ∧
    (∀ l : List HierItem, sizeOf l ≤ n → ∀ o, visit_instantiation l = some o →
      visit_instantiation o = some o) := by
  intro n
  induction n using Nat.strong_induction_on with
  | _ n ih =>
  refine ⟨?_, ?_, ?_, ?_, ?_⟩
  · -- visit_item
    intro i hs o h
    cases i with
    | design insts =>
      rw [visit_item] at h
      cases hv : visitInstList insts <;> rw [hv] at h
      · simp at h
      case some l2 =>
        obtain rfl := Option.some_inj.mp h
        have hsz : sizeOf insts ≤ n - 1 ∧ 1 ≤ n := by simp at hs; omega
        have h2 := (ih (n - 1) (by omega)).2.2.2.1 insts hsz.1 l2 hv
        rw [visit_item, h2]
    | genBlock l =>
      rw [visit_item] at h
      cases hv : visitItemList l <;> rw [hv] at h
      · simp at h
      case some l2 =>
        obtain rfl := Option.some_inj.mp h
        have hsz : sizeOf l ≤ n - 1 ∧ 1 ≤ n := by simp at hs; omega
        have h2 := (ih (n - 1) (by omega)).2.1 l hsz.1 l2 hv
        rw [visit_item, h2]
    | loopGenBlock l =>
      rw [visit_item] at h
      cases hv : visitGenList l <;> rw [hv] at h
      · simp at h
      case some l2 =>
        obtain rfl := Option.some_inj.mp h
        have hsz : sizeOf l ≤ n - 1 ∧ 1 ≤ n := by simp at hs; omega
        have h2 := (ih (n - 1) (by omega)).2.2.1 l hsz.1 l2 hv
        rw [visit_item, h2]
    | param decl =>
      have h2 : o = .param decl := by
        rw [visit_item] at h
        · exact (Option.some_inj.mp h).symm
        all_goals simp
      subst h2
      rw [visit_item]
      all_goals simp
    | typeDecl d =>
      have h2 : o = .typeDecl d := by
        rw [visit_item] at h
        · exact (Option.some_inj.mp h).symm
        all_goals simp
      subst h2
      rw [visit_item]
      all_goals simp
    | dataPort c =>
      have h2 : o = .dataPort c := by
        rw [visit_item] at h
        · exact (Option.some_inj.mp h).symm
        all_goals simp
      subst h2
      rw [visit_item]
      all_goals simp
    | interfacePort c =>
      have h2 : o = .interfacePort c := by
        rw [visit_item] at h
        · exact (Option.some_inj.mp h).symm
        all_goals simp
      subst h2
      rw [visit_item]
      all_goals simp
    | otherItem c =>
      have h2 : o = .otherItem c := by
        rw [visit_item] at h
        · exact (Option.some_inj.mp h).symm
        all_goals simp
      subst h2
      rw [visit_item]
      all_goals simp
  · -- visitItemList
    intro l hs o h
    cases l with
    | nil =>
      rw [visitItemList] at h
      obtain rfl := Option.some_inj.mp h
      rw [visitItemList]
    | cons i rest =>
      rw [visitItemList] at h
      cases ha : visit_item i <;> rw [ha] at h
      · simp at h
      case some a =>
        cases hr : visitItemList rest <;> rw [hr] at h
        · simp at h
        case some r2 =>
          obtain rfl := Option.some_inj.mp h
          have hsz : sizeOf i ≤ n - 1 ∧ sizeOf rest ≤ n - 1 ∧ 1 ≤ n := by
            simp at hs; omega
          have IH := ih (n - 1) (by omega)
          rw [visitItemList, IH.1 i hsz.1 a ha, IH.2.1 rest hsz.2.1 r2 hr]
  · -- visitGenList
    intro l hs o h
    cases l with
    | nil =>
      rw [visitGenList] at h
      obtain rfl := Option.some_inj.mp h
      rw [visitGenList]
    | cons s rest =>
      rw [visitGenList] at h
      cases ha : visitItemList s <;> rw [ha] at h
      · simp at h
      case some a =>
        cases hr : visitGenList rest <;> rw [hr] at h
        · simp at h
        case some r2 =>
          obtain rfl := Option.some_inj.mp h
          have hsz : sizeOf s ≤ n - 1 ∧ sizeOf rest ≤ n - 1 ∧ 1 ≤ n := by
            simp at hs; omega
          have IH := ih (n - 1) (by omega)
          rw [visitGenList, IH.2.1 s hsz.1 a ha, IH.2.2.1 rest hsz.2.1 r2 hr]
  · -- visitInstList
    intro l hs o h
    cases l with
    | nil =>
      rw [visitInstList] at h
      obtain rfl := Option.some_inj.mp h
      rw [visitInstList]
    | cons s rest =>
      rw [visitInstList] at h
      cases ha : visit_instantiation s <;> rw [ha] at h
      · simp at h
      case some a =>
        cases hr : visitInstList rest <;> rw [hr] at h
        · simp at h
        case some r2 =>
          obtain rfl := Option.some_inj.mp h
          have hsz : sizeOf s ≤ n - 1 ∧ sizeOf rest ≤ n - 1 ∧ 1 ≤ n := by
            simp at hs; omega
          have IH := ih (n - 1) (by omega)
          rw [visitInstList, IH.2.2.2.2 s hsz.1 a ha,
            IH.2.2.2.1 rest hsz.2.1 r2 hr]
  · -- visit_instantiation
    intro l hs o h
    rw [visit_instantiation] at h
    cases hp : partitionItems l <;> rw [hp] at h
    · simp at h
    case some q =>
      obtain ⟨ps, tps, pos, os⟩ := q
      obtain rfl := Option.some_inj.mp h
      obtain ⟨e1, e2, e3, e4⟩ := partitionItems_char l ps tps pos os hp
      have hn : 1 ≤ n := by
        refine le_trans ?_ hs
        cases l <;> simp <;> omega
      have hkept : ∀ it ∈ ps, isKeptParam it = true := by
        rw [e1]
        intro it hit
        exact List.of_mem_filter hit
      have hports : ∀ it ∈ pos, isPortItem it = true := by
        rw [e3]
        intro it hit
        exact List.of_mem_filter hit
      have hfixed : ∀ it ∈ tps ++ os, isParamItem it = false ∧
          isPortItem it = false ∧ visit_item it = some it := by
        intro it hit
        rcases List.mem_append.mp hit with h1 | h2
        · rw [e2] at h1
          obtain ⟨i, hi, he⟩ := List.mem_filterMap.mp h1
          obtain ⟨d, rfl⟩ := elimTypeParam_is_typeDecl he
          refine ⟨by simp [isParamItem], by simp [isPortItem], ?_⟩
          rw [visit_item]
          all_goals simp
        · obtain ⟨i, hi, hv⟩ := visitItemList_mem e4 it h2
          have hsh := visit_item_shape hv
          have hio := List.of_mem_filter hi
          simp only [isOtherItem, Bool.not_eq_true', Bool.or_eq_false_iff] at hio
          have hi_l : i ∈ l := List.mem_of_mem_filter hi
          have hszi : sizeOf i ≤ n - 1 := by
            have := List.sizeOf_lt_of_mem hi_l
            omega
          have hidem := (ih (n - 1) (by omega)).1 i hszi it hv
          exact ⟨by rw [hsh.2.1]; exact hio.1, by rw [hsh.2.2.1]; exact hio.2, hidem⟩
      have P1 := partitionItems_of_kept hkept
      have P2 := partitionItems_of_ports hports
      have P3 := partitionItems_of_fixed hfixed
      have A1 := partitionItems_append P3 P2
      have A2 := partitionItems_append A1 P1
      simp only [List.append_nil, List.nil_append] at A2
      rw [visit_instantiation]
      simp only [List.append_assoc]
      rw [A2]
      simp

/-- C7: `type_param_elim` is idempotent — re-running the pass on a
successful output returns that output unchanged. -/
theorem type_param_elim_idem (src out : List (List HierItem))
    (h : type_param_elim src = some out) :
    type_param_elim out = some out := by
  rw [type_param_elim] at h ⊢
  exact (visit_idem_aux (sizeOf src)).2.2.1 src le_rfl out h

/-- An IR with one design whose single instantiation has the S5 scope. -/
def designIR : List (List HierItem) := [[.design [s5Items]]]

/-- The rewritten form of `designIR`. -/
def designIRResult : List (List HierItem) := [[.design [s5Result]]]

/-- Witness for `type_param_elim_idem`: the pass applied to the rewritten S5
design returns it unchanged. -/
theorem type_param_elim_idem_witness :
    type_param_elim designIRResult = some designIRResult :=
  type_param_elim_idem designIR designIRResult
    (by simp [type_param_elim, designIR, designIRResult, visitGenList,
              visitItemList, visit_item, visitInstList, visit_instantiation,
              partitionItems, classifyItem, classifyParam, s5Items, s5Result])

/-!
Model of the context-sensitive parser (`src/parser/mod.rs`).  The lexer
module is not among the sources under study, so its token type is modelled
from the specification: keywords form a closed enum, delimited groups carry
their opening and closing tokens and the pre-assembled inner deque, and end
of stream is a dedicated `Eof` token (the stream is infinite in its `Eof`
tail).  Only the AST nodes that the modelled functions construct are
included (`ParamDecl`/`Sort`/`ParamAssign` come from the specification,
their defining module being absent from the sources).
-/

/-- The closed keyword enum of the lexer (spec §3), `Kw`-suffixed. -/
inductive PKeyword where
  | moduleKw | parameterKw | localparamKw | typeKw | inputKw | outputKw
  | inoutKw | refKw | varKw | automaticKw | staticKw | signedKw | unsignedKw
  | bitKw | logicKw | regKw | nullKw | thisKw | superKw | taggedKw | localKw
  | unitKw | interfaceKw | assignKw | externKw | rootKw
deriving DecidableEq, Repr

/-- The operators referenced by the modelled parser functions. -/
inductive POperator where
  | hashOp | commaOp | assignOp | colonOp | scopeSepOp | dotOp | dollarOp
  | mulOp | plusColonOp | minusColonOp | incOp | decOp | addOp | subOp
  | logicNotOp | bitNotOp | andOp | nandOp | orOp | norOp | xorOp | xnorOp
deriving DecidableEq, Repr

/-- Delimiter kinds of delimited-group tokens. -/
inductive PDelim where
  | paren
  | bracket
  | brace
  | tickBrace
  | attrDelim
deriving DecidableEq, Repr

mutual

/-- Parser-side token kinds. -/
inductive PTokKind where
  | keyword (k : PKeyword)
  | op (o : POperator)
  | id (name : String)
  | integerLiteral (v : Nat)
  | realLiteral (v : Nat)
  | timeLiteral (v : Nat)
  | unbasedLiteral (v : Nat)
  | stringLiteral (s : String)
  | delimGroup (d : PDelim) (grp : PDelimGroup)
  | eof
  | unknown

/-- A parser-side token: kind plus span. -/
inductive PTok where
  | mk (kind : PTokKind) (span : Span)

/-- A delimited group: opening and closing tokens and the inner deque. -/
inductive PDelimGroup where
  | mk (openTok : PTok) (closeTok : PTok) (toks : List PTok)

end

/-- Kind of a parser token. -/
def PTok.kind : PTok → PTokKind
  | .mk k _ => k

/-- Span of a parser token. -/
def PTok.span : PTok → Span
  | .mk _ s => s

/-- Inner deque of a delimited group. -/
def PDelimGroup.toks : PDelimGroup → List PTok
  | .mk _ _ l => l

/-- An identifier with its span (`Ident = Spanned<String>`). -/
structure PIdent where
  name : String
  span : Span
deriving Repr

/-- Signing of a data type. -/
inductive PSigning where
  | signed
  | unsigned
deriving DecidableEq, Repr

/-- `Scope`: `$unit`, `local`, or a possibly nested named scope.  `unitScope`
renders `Scope::Unit`, `localScope` renders `Scope::Local`. -/
inductive PScope where
  | unitScope
  | localScope
  | scopedName (parent : Option PScope) (ident : PIdent)
deriving Repr

/-- `HierId`: `$root`, `this`, `super`, or a possibly parented name. -/
inductive PHierId where
  | rootId
  | thisId
  | superId
  | nameId (parent : Option PHierId) (ident : PIdent)
deriving Repr

mutual

/-- The expression kinds built by the modelled parser paths. -/
inductive PExprKind where
  | literal (tok : PTok)
  | hierName (scope : Option PScope) (id : PHierId)
  | exprSelect (e : PExpr) (sel : PSelect)
  | member (e : PExpr) (ident : PIdent)

/-- A spanned expression. -/
inductive PExpr where
  | mk (kind : PExprKind) (span : Span)

/-- Bit-select and part-select variants. -/
inductive PSelect where
  | value (e : PExpr)
  | range (a : PExpr) (b : PExpr)
  | plusRange (a : PExpr) (b : PExpr)
  | minusRange (a : PExpr) (b : PExpr)

/-- The data-type kinds the modelled `parse_data_type` constructs. -/
inductive PDataTypeKind where
  | implicit (sign : PSigning) (dims : List PDim)
  | intVec (kw : PKeyword) (sign : PSigning) (dims : List PDim)

/-- A spanned data type. -/
inductive PDataType where
  | mk (kind : PDataTypeKind) (span : Span)

/-- Dimension kinds (`variable_dimension`). -/
inductive PDimKind where
  | unsized
  | queue (limit : Option PExpr)
  | assocWild
  | assoc (ty : PDataType)
  | value (e : PExpr)
  | range (a : PExpr) (b : PExpr)

/-- A spanned dimension. -/
inductive PDim where
  | mk (kind : PDimKind) (span : Span)

/-- `ExprOrType` (the parser's `parse_expr_or_type` only ever builds the
expression alternative). -/
inductive PExprOrType where
  | expr (e : PExpr)
  | typeAlt (d : PDataType)

end

/-- Kind of a dimension. -/
def PDim.kind : PDim → PDimKind
  | .mk k _ => k

/-- Span of a dimension. -/
def PDim.span : PDim → Span
  | .mk _ s => s

/-- `param_assignment`: name, unpacked dimensions, optional initializer
(modelled from the spec; the defining module is absent from the sources). -/
structure PParamAssign where
  name : PIdent
  dim : List PDim
  init : Option PExprOrType

/-- The parameter sort: `Kind` for `type` parameters, `Type` for a stated
data type (modelled from the spec). -/
inductive PSort where
  | kind
  | type (dt : PDataType)

/-- `ParamDecl { keyword, sort?, assignments }`. -/
structure PParamDecl where
  kw : PKeyword
  ty : Option PSort
  list : List PParamAssign

/-- Parser state: the active token stream and the reported diagnostics. -/
structure ParState where
  stream : List PTok
  diags : List Diag

/-- Outcome of a parser computation: success, a `Severity::Fatal` abort, or
fuel exhaustion. -/
inductive PRes (α : Type) where
  | ok (a : α) (st : ParState)
  | fatal (st : ParState)
  | fuelOut (st : ParState)

/-- The parser monad: state plus fatal-abort. -/
def PM (α : Type) : Type := ParState → PRes α

instance : Monad PM where
  pure a := fun st => .ok a st
  bind x f := fun st =>
    match x st with
    | .ok a st2 => f a st2
    | .fatal st2 => .fatal st2
    | .fuelOut st2 => .fuelOut st2

/-- Abort with `Severity::Fatal` (the `Err(())` channel). -/
def throwFatal {α : Type} : PM α := fun st => .fatal st

/-- Fuel exhaustion. -/
def fuelErr {α : Type} : PM α := fun st => .fuelOut st

/-- The dedicated `Eof` token presented beyond the end of the stream. -/
def eofTok : PTok := .mk .eof ⟨0, 0⟩

/-- `peek()`: the next token, not consumed. -/
def peekT : PM PTok := fun st => .ok (st.stream.headD eofTok) st

/-- `peek_n(k)`: the token at offset `k`. -/
def peekN (k : Nat) : PM PTok := fun st => .ok (st.stream.getD k eofTok) st

/-- `consume()`: take the next token (`Eof` beyond the end). -/
def consumeT : PM PTok := fun st =>
  match st.stream with
  | [] => .ok eofTok st
  | t :: r => .ok t { st with stream := r }

/-- `pushback(tok)`: return a token to the head of the stream. -/
def pushbackT (t : PTok) : PM Unit := fun st =>
  .ok () { st with stream := t :: st.stream }

/-- `report_span` via `report_diag`: record a diagnostic; `Fatal` aborts. -/
def reportSpanP (sev : Severity) (msg : String) (sp : Span) : PM Unit :=
  fun st =>
    let st2 := { st with diags := st.diags ++ [⟨sev, msg, sp⟩] }
    match sev with
    | .fatal => .fatal st2
    | _ => .ok () st2

/-- `Span::join`: `(min(lo, other.lo), max(hi, other.hi))`. -/
def Span.join (a b : Span) : Span :=
  ⟨min a.lo b.lo, max a.hi b.hi⟩

/-- Span of an expression. -/
def PExpr.span : PExpr → Span
  | .mk _ s => s

/-- Rust debug name of an operator (for `expected operator {:#?}`). -/
def opName : POperator → String
  | .hashOp => "Hash"
  | .commaOp => "Comma"
  | .assignOp => "Assign"
  | .colonOp => "Colon"
  | .scopeSepOp => "ScopeSep"
  | .dotOp => "Dot"
  | .dollarOp => "Dollar"
  | .mulOp => "Mul"
  | .plusColonOp => "PlusColon"
  | .minusColonOp => "MinusColon"
  | .incOp => "Inc"
  | .decOp => "Dec"
  | .addOp => "Add"
  | .subOp => "Sub"
  | .logicNotOp => "LNot"
  | .bitNotOp => "Not"
  | .andOp => "And"
  | .nandOp => "Nand"
  | .orOp => "Or"
  | .norOp => "Nor"
  | .xorOp => "Xor"
  | .xnorOp => "Xnor"

/-- Rust debug name of a delimiter (for `expected open delimiter {:#?}`). -/
def delimName : PDelim → String
  | .paren => "Paren"
  | .bracket => "Bracket"
  | .brace => "Brace"
  | .tickBrace => "TickBrace"
  | .attrDelim => "Attr"

/-- `consume_if_id`. -/
def consume_if_id : PM (Option PIdent) := do
  let t ← consumeT
  match t.kind with
  | .id n => pure (some ⟨n, t.span⟩)
  | _ => do
    pushbackT t
    pure none

/-- `consume_if_kw`. -/
def consume_if_kw (kw : PKeyword) : PM (Option PTok) := do
  let t ← peekT
  match t.kind with
  | .keyword nkw =>
    if nkw = kw then do
      let c ← consumeT
      pure (some c)
    else pure none
  | _ => pure none

/-- `consume_if_op`. -/
def consume_if_op (o : POperator) : PM (Option PTok) := do
  let t ← peekT
  match t.kind with
  | .op no =>
    if no = o then do
      let c ← consumeT
      pure (some c)
    else pure none
  | _ => pure none

/-- `consume_if_delim`. -/
def consume_if_delim (d : PDelim) : PM (Option PDelimGroup) := do
  let t ← consumeT
  match t.kind with
  | .delimGroup d2 grp =>
    if d2 = d then pure (some grp)
    else do
      pushbackT t
      pure none
  | _ => do
    pushbackT t
    pure none

/-- `expect_id`: error recovery synthesizes an empty-name identifier. -/
def expect_id : PM PIdent := do
  match (← consume_if_id) with
  | none => do
    let sp := (← peekT).span
    reportSpanP .error "expected identifier" sp
    pure ⟨"", sp⟩
  | some v => pure v

/-- `expect_op`: error recovery synthesizes an `Unknown` token. -/
def expect_op (o : POperator) : PM PTok := do
  match (← consume_if_op o) with
  | none => do
    let sp := (← peekT).span
    reportSpanP .error ("expected operator " ++ opName o) sp
    pure (.mk .unknown sp)
  | some v => pure v

/-- `expect_eof`: the inner stream must be drained at a group's end. -/
def expect_eof : PM Unit := do
  let t ← peekT
  match t.kind with
  | .eof => pure ()
  | _ => reportSpanP .error "unexpected extra token" t.span

/-- `expect_delim`: error recovery synthesizes an empty group of `Unknown`
tokens. -/
def expect_delim (d : PDelim) : PM PDelimGroup := do
  match (← consume_if_delim d) with
  | none => do
    let sp := (← peekT).span
    reportSpanP .error ("expected open delimiter " ++ delimName d) sp
    pure (.mk (.mk .unknown sp) (.mk .unknown sp) [])
  | some v => pure v

/-- `delim_group`: swap the active stream for the group's inner deque, run
the sub-parse, require the inner stream drained, and restore the outer
stream (left as-is — exactly as the Rust `?` operator does — on a fatal
abort). -/
def delim_group {α : Type} (grp : PDelimGroup) (f : PM α) : PM α := fun st =>
  let saved := st.stream
  match (do let a ← f; expect_eof; pure a) { st with stream := grp.toks } with
  | .ok a st2 => .ok a { st2 with stream := saved }
  | r => r

/-- `parse_delim`. -/
def parse_delim {α : Type} (d : PDelim) (f : PM α) : PM α := do
  let grp ← expect_delim d
  delim_group grp f

/-- `parse_if_delim_spanned`. -/
def parse_if_delim_spanned {α : Type} (d : PDelim) (f : PM α) :
    PM (Option (α × Span)) := do
  let t ← peekT
  match t.kind with
  | .delimGroup d2 grp =>
    if d2 = d then do
      let tok ← consumeT
      let a ← delim_group grp f
      pure (some (a, tok.span))
    else pure none
  | _ => pure none

/-- `parse_signing` (defaults to unsigned). -/
def parse_signing : PM PSigning := do
  let t ← peekT
  match t.kind with
  | .keyword .signedKw => do
    let _ ← consumeT
    pure .signed
  | .keyword .unsignedKw => do
    let _ ← consumeT
    pure .unsigned
  | _ => pure .unsigned

/-- `check_unpacked_dim`. -/
def check_unpacked_dim (d : PDim) : PM Bool := do
  match d.kind with
  | .assoc _ => do
    reportSpanP .error
      "this type of range is not allowed in unpacked dimension context" d.span
    pure false
  | .assocWild => do
    reportSpanP .error
      "this type of range is not allowed in unpacked dimension context" d.span
    pure false
  | .queue _ => do
    reportSpanP .error
      "this type of range is not allowed in unpacked dimension context" d.span
    pure false
  | .unsized => do
    reportSpanP .error
      "this type of range is not allowed in unpacked dimension context" d.span
    pure false
  | _ => pure true

/-- `check_list` specialised to `check_unpacked_dim` (`Vec::retain` of the
elements the check accepts; the check never returns the `Err` channel since
it reports at `Error` severity). -/
def check_list_unpacked : List PDim → PM (List PDim)
  | [] => pure []
  | d :: rest => do
    let ok ← check_unpacked_dim d
    let rest2 ← check_list_unpacked rest
    pure (if ok then d :: rest2 else rest2)

/-- `is_prefix_operator`. -/
def is_prefix_operator (o : POperator) : Bool :=
  match o with
  | .addOp | .subOp | .logicNotOp | .bitNotOp | .andOp | .nandOp | .orOp
  | .norOp | .xorOp | .xnorOp => true
  | .incOp | .decOp => true
  | _ => false

/-- The four-way dispatch of `parse_scope`'s loop on the peeked token:
`local`, `$unit`, a possible scope identifier, or loop exit. -/
inductive ScopeStep where
  | isLocal
  | isUnit
  | isId
  | isBreak
deriving DecidableEq, Repr

/-- Which `parse_scope` branch a peeked token kind selects. -/
def scope_step_kind : PTokKind → ScopeStep
  | .keyword .localKw => .isLocal
  | .keyword .unitKw => .isUnit
  | .id _ => .isId
  | _ => .isBreak

/-- The up-to-3-token lookahead of `parse_scope`'s identifier branch:
continue into the scope segment on `id ::` or `id # (...) ::`, otherwise
break (the identifier belongs to the following expression). -/
def scope_lookahead (k1 k2 k3 : PTokKind) : Bool :=
  match k1 with
  | .op .scopeSepOp => true
  | .op .hashOp =>
    match k2 with
    | .delimGroup .paren _ =>
      match k3 with
      | .op .scopeSepOp => true
      | _ => false
    | _ => false
  | _ => false

mutual

/-- The identifier-leg of `parse_scope`'s loop: consume `ident [#] ::` and
continue; a `#(...)` class-parameter binding is a fatal
"not yet supported". -/
def scope_id_part : Nat → Option PScope → PM (Option PScope)
  | 0, _ => fuelErr
  | n + 1, scope => do
    let ident ← expect_id
    match ← consume_if_op .hashOp with
    | some _ => do
      reportSpanP .fatal "class parameter scope is not yet supported" ident.span
      throwFatal
    | none => do
      let _ ← expect_op .scopeSepOp
      parse_scope_go n (some (.scopedName scope ident))

/-- The loop of `parse_scope`, carrying the scope accumulated so far.  The
`$unit` branch mirrors the source exactly: it records `Scope::Local`, not
`Scope::Unit`. -/
def parse_scope_go : Nat → Option PScope → PM (Option PScope)
  | 0, _ => fuelErr
  | n + 1, scope => do
    let t ← peekT
    match scope_step_kind t.kind with
    | .isLocal => do
      let tok ← consumeT
      let scope2 ← (match scope with
        | some _ => do
          reportSpanP .error "local scope can only be the outermost scope" tok.span
          pure scope
        | none => pure (some PScope.localScope))
      let _ ← expect_op .scopeSepOp
      parse_scope_go n scope2
    | .isUnit => do
      let tok ← consumeT
      let scope2 ← (match scope with
        | some _ => do
          reportSpanP .error "$unit scope can only be the outermost scope" tok.span
          pure scope
        | none => pure (some PScope.localScope))
      let _ ← expect_op .scopeSepOp
      parse_scope_go n scope2
    | .isId => do
      let t1 ← peekN 1
      let t2 ← peekN 2
      let t3 ← peekN 3
      if scope_lookahead t1.kind t2.kind t3.kind then scope_id_part n scope
      else pure scope
    | .isBreak => pure scope

end

/-- `parse_scope`. -/
def parse_scope (n : Nat) : PM (Option PScope) :=
  parse_scope_go n none

/-- One element of `parse_hier_id`'s dot-separated list. -/
def hier_id_elem (acc : Option PHierId) : PM (Bool × Option PHierId) := do
  let t ← peekT
  match t.kind with
  | .keyword .thisKw => do
    let tok ← consumeT
    match acc with
    | some _ => do
      reportSpanP .error "this can only be the outermost identifier" tok.span
      pure (true, acc)
    | none => pure (true, some .thisId)
  | .keyword .superKw => do
    let tok ← consumeT
    match acc with
    | none => pure (true, some .superId)
    | some .thisId => pure (true, some .superId)
    | some _ => do
      reportSpanP .error "super can only be the outermost identifier" tok.span
      pure (true, acc)
  | .keyword .rootKw => do
    let tok ← consumeT
    match acc with
    | some _ => do
      reportSpanP .error "$root can only be the outermost identifier" tok.span
      pure (true, acc)
    | none => pure (true, some .rootId)
  | .id _ => do
    let ident ← expect_id
    pure (true, some (.nameId acc ident))
  | _ => pure (false, acc)

/-- The separator loop of `parse_hier_id` (`parse_sep_list_unit` at `Dot`,
empty allowed, no trailing separator). -/
def hier_id_loop : Nat → Option PHierId → PM (Option PHierId)
  | 0, _ => fuelErr
  | n + 1, acc => do
    match ← consume_if_op .dotOp with
    | none => pure acc
    | some sep => do
      let r ← hier_id_elem acc
      if r.1 then hier_id_loop n r.2
      else do
        reportSpanP .error
          ("trailing " ++ opName .dotOp ++ " is not allowed; consider removing it")
          sep.span
        pure r.2

/-- `parse_hier_id`. -/
def parse_hier_id (n : Nat) : PM (Option PHierId) := do
  let r ← hier_id_elem none
  if r.1 then hier_id_loop n r.2
  else pure r.2

mutual

/-- `parse_expr`: tagged-union and prefix-operator expressions are fatal
"not yet supported"; everything else is a primary. -/
def parse_expr : Nat → PM (Option PExpr)
  | 0 => fuelErr
  | n + 1 => do
    let t ← peekT
    match t.kind with
    | .keyword .taggedKw => do
      reportSpanP .fatal "tagged_union_expression not yet supported" t.span
      throwFatal
    | .op o =>
      if is_prefix_operator o then do
        reportSpanP .fatal "prefix_expression not yet supported" t.span
        throwFatal
      else parse_primary_nocast n
    | _ => parse_primary_nocast n

/-- `parse_unwrap(Self::parse_expr)`: `Expr` has no recovery node, so a
missing expression is the fatal "expression support is not completed yet". -/
def parse_unwrap_expr : Nat → PM PExpr
  | 0 => fuelErr
  | n + 1 => do
    match ← parse_expr n with
    | some v => pure v
    | none => do
      let sp := (← peekT).span
      reportSpanP .fatal "expression support is not completed yet" sp
      throwFatal

/-- `parse_primary_nocast`. -/
def parse_primary_nocast : Nat → PM (Option PExpr)
  | 0 => fuelErr
  | n + 1 => do
    let t ← peekT
    match t.kind with
    | .eof => pure none
    | .realLiteral _ => do
      let tok ← consumeT
      pure (some (.mk (.literal tok) tok.span))
    | .integerLiteral _ => do
      let tok ← consumeT
      pure (some (.mk (.literal tok) tok.span))
    | .timeLiteral _ => do
      let tok ← consumeT
      pure (some (.mk (.literal tok) tok.span))
    | .unbasedLiteral _ => do
      let tok ← consumeT
      pure (some (.mk (.literal tok) tok.span))
    | .stringLiteral _ => do
      let tok ← consumeT
      pure (some (.mk (.literal tok) tok.span))
    | .op .dollarOp => do
      let tok ← consumeT
      pure (some (.mk (.literal tok) tok.span))
    | .keyword .nullKw => do
      let tok ← consumeT
      pure (some (.mk (.literal tok) tok.span))
    | .delimGroup .brace _ => do
      reportSpanP .fatal "concat is not finished yet" t.span
      throwFatal
    | .delimGroup .tickBrace _ => do
      reportSpanP .fatal "assign pattern is not finished yet" t.span
      throwFatal
    | .delimGroup .paren _ => do
      reportSpanP .fatal "paren is not finished yet" t.span
      throwFatal
    | _ => do
      let beginSpan := t.span
      let scope ← parse_scope n
      let idOpt ← parse_hier_id n
      match idOpt with
      | some i => primary_hier_tail n beginSpan scope i
      | none =>
        match scope with
        | none => pure none
        | some _ => do
          let sp := (← peekT).span
          reportSpanP .error "expected identifiers after scope" sp
          primary_hier_tail n beginSpan scope (.nameId none ⟨"", ⟨0, 0⟩⟩)

/-- The tail of `parse_primary_nocast`'s hierarchical-name arm: build the
`HierName` expression and dispatch on the following token (several postfix
forms are fatal "not finished yet"; a bracket group starts a select). -/
def primary_hier_tail : Nat → Span → Option PScope → PHierId → PM (Option PExpr)
  | 0, _, _, _ => fuelErr
  | n + 1, beginSpan, scope, id2 => do
    let endSpan0 := (← peekT).span
    let endSpan : Span := ⟨endSpan0.lo, endSpan0.lo⟩
    let expr : PExpr := .mk (.hierName scope id2) (beginSpan.join endSpan)
    let t2 ← peekT
    match t2.kind with
    | .delimGroup .tickBrace _ => do
      reportSpanP .fatal "assign pattern is not finished yet" t2.span
      throwFatal
    | .delimGroup .attrDelim _ => do
      reportSpanP .fatal "inc/dec or function call not finished yet" t2.span
      throwFatal
    | .delimGroup .paren _ => do
      reportSpanP .fatal "function call not finished yet" t2.span
      throwFatal
    | .op .incOp => do
      reportSpanP .fatal "inc/dec not finished yet" t2.span
      throwFatal
    | .op .decOp => do
      reportSpanP .fatal "inc/dec not finished yet" t2.span
      throwFatal
    | .delimGroup .bracket _ => do
      let e ← parse_select_loop n expr
      pure (some e)
    | _ => pure (some expr)

/-- `parse_select`: left-associated bit and part selects and member
accesses. -/
def parse_select_loop : Nat → PExpr → PM PExpr
  | 0, _ => fuelErr
  | n + 1, e => do
    let t ← peekT
    match t.kind with
    | .delimGroup .bracket _ => do
      let sel ← parse_single_select n
      let endSpan0 := (← peekT).span
      let endSpan : Span := ⟨endSpan0.lo, endSpan0.lo⟩
      parse_select_loop n (.mk (.exprSelect e sel) (e.span.join endSpan))
    | .op .dotOp => do
      let _ ← consumeT
      let ident ← expect_id
      parse_select_loop n (.mk (.member e ident) (e.span.join ident.span))
    | _ => pure e

/-- `parse_single_select`. -/
def parse_single_select : Nat → PM PSelect
  | 0 => fuelErr
  | n + 1 =>
    parse_delim .bracket (do
      let e ← parse_unwrap_expr n
      let t ← peekT
      match t.kind with
      | .op .colonOp => do
        let _ ← consumeT
        let b ← parse_unwrap_expr n
        pure (.range e b)
      | .op .plusColonOp => do
        let _ ← consumeT
        let b ← parse_unwrap_expr n
        pure (.plusRange e b)
      | .op .minusColonOp => do
        let _ ← consumeT
        let b ← parse_unwrap_expr n
        pure (.minusRange e b)
      | _ => pure (.value e))

/-- `parse_expr_or_type` (builds only the expression alternative). -/
def parse_expr_or_type : Nat → PM PExprOrType
  | 0 => fuelErr
  | n + 1 => do
    let e ← parse_unwrap_expr n
    pure (.expr e)

/-- `parse_dim`: all dimension forms, recognised by peeking inside the
bracket group. -/
def parse_dim : Nat → PM (Option PDim)
  | 0 => fuelErr
  | n + 1 => do
    let r ← parse_if_delim_spanned .bracket (do
      let t ← peekT
      match t.kind with
      | .eof => pure PDimKind.unsized
      | .op .dollarOp => do
        let _ ← consumeT
        match ← consume_if_op .colonOp with
        | none => pure (PDimKind.queue none)
        | some _ => do
          let e ← parse_unwrap_expr n
          pure (PDimKind.queue (some e))
      | .op .mulOp => do
        let _ ← consumeT
        pure PDimKind.assocWild
      | _ => do
        match ← parse_expr_or_type n with
        | .expr e => do
          match ← consume_if_op .colonOp with
          | some _ => do
            let b ← parse_unwrap_expr n
            pure (PDimKind.range e b)
          | none => pure (PDimKind.value e)
        | .typeAlt ty => pure (PDimKind.assoc ty))
    match r with
    | some (k, sp) => pure (some (.mk k sp))
    | none => pure none

/-- `parse_pack_dim`: reject the dimension kinds disallowed in packed
context. -/
def parse_pack_dim : Nat → PM (Option PDim)
  | 0 => fuelErr
  | n + 1 => do
    match ← parse_dim n with
    | none => pure none
    | some ret =>
      match ret.kind with
      | .assoc _ => do
        reportSpanP .error
          "this type of range is not allowed in packed dimension context" ret.span
        pure none
      | .assocWild => do
        reportSpanP .error
          "this type of range is not allowed in packed dimension context" ret.span
        pure none
      | .queue _ => do
        reportSpanP .error
          "this type of range is not allowed in packed dimension context" ret.span
        pure none
      | .value _ => do
        reportSpanP .error
          "this type of range is not allowed in packed dimension context" ret.span
        pure none
      | _ => pure (some ret)

/-- `parse_list(Self::parse_pack_dim)`. -/
def parse_pack_dim_list : Nat → PM (List PDim)
  | 0 => fuelErr
  | n + 1 => do
    match ← parse_pack_dim n with
    | none => pure []
    | some v => do
      let vs ← parse_pack_dim_list n
      pure (v :: vs)

/-- `parse_list(Self::parse_dim)`. -/
def parse_dim_list : Nat → PM (List PDim)
  | 0 => fuelErr
  | n + 1 => do
    match ← parse_dim n with
    | none => pure []
    | some v => do
      let vs ← parse_dim_list n
      pure (v :: vs)

/-- `parse_data_type`: keyword integer-vector types, implicit types (when
allowed), and pushback-and-`None` for everything else. -/
def parse_data_type : Nat → Bool → PM (Option PDataType)
  | 0, _ => fuelErr
  | n + 1, implicitAllowed => do
    let toksp ← consumeT
    match toksp.kind with
    | .keyword .bitKw => do
      let sign ← parse_signing
      let dim ← parse_pack_dim_list n
      pure (some (.mk (.intVec .bitKw sign dim) toksp.span))
    | .keyword .logicKw => do
      let sign ← parse_signing
      let dim ← parse_pack_dim_list n
      pure (some (.mk (.intVec .logicKw sign dim) toksp.span))
    | .keyword .regKw => do
      let sign ← parse_signing
      let dim ← parse_pack_dim_list n
      pure (some (.mk (.intVec .regKw sign dim) toksp.span))
    | .keyword .signedKw => do
      let sp := toksp.span
      pushbackT toksp
      if implicitAllowed then do
        let sign ← parse_signing
        let dim ← parse_pack_dim_list n
        pure (some (.mk (.implicit sign dim) sp))
      else pure none
    | .keyword .unsignedKw => do
      let sp := toksp.span
      pushbackT toksp
      if implicitAllowed then do
        let sign ← parse_signing
        let dim ← parse_pack_dim_list n
        pure (some (.mk (.implicit sign dim) sp))
      else pure none
    | .delimGroup .bracket _ => do
      let sp := toksp.span
      pushbackT toksp
      if implicitAllowed then do
        let dim ← parse_pack_dim_list n
        pure (some (.mk (.implicit .unsigned dim) sp))
      else pure none
    | _ => do
      pushbackT toksp
      pure none

/-- `parse_param_assign`. -/
def parse_param_assign : Nat → PM PParamAssign
  | 0 => fuelErr
  | n + 1 => do
    let ident ← expect_id
    let dim ← parse_dim_list n
    let r ← (do
      match ← consume_if_id with
      | some id2 => do
        reportSpanP .error "this looks like a data type but it is not declared"
          ident.span
        let d2 ← parse_dim_list n
        pure (id2, d2)
      | none => pure (ident, dim))
    let dim3 ← check_list_unpacked r.2
    let init ← (do
      match ← consume_if_op .assignOp with
      | none => pure none
      | some _ => do
        let v ← parse_expr_or_type n
        pure (some v))
    pure ⟨r.1, dim3, init⟩

/-- One element of the `#(...)` comma list of `parse_param_port_list`: the
closure's body, threading the built declarations and the active header. -/
def ppl_elem : Nat → List PParamDecl × PParamDecl →
    PM (Bool × (List PParamDecl × PParamDecl))
  | 0, _ => fuelErr
  | n + 1, s => do
    let vec := s.1
    let decl := s.2
    let t ← peekT
    match t.kind with
    | .eof => pure (false, s)
    | .keyword .parameterKw => do
      let _ ← consumeT
      let vec2 := if decl.list.isEmpty then vec else vec ++ [decl]
      ppl_elem_sort n vec2 ⟨.parameterKw, none, []⟩
    | .keyword .localparamKw => do
      let _ ← consumeT
      let vec2 := if decl.list.isEmpty then vec else vec ++ [decl]
      ppl_elem_sort n vec2 ⟨.localparamKw, none, []⟩
    | _ => ppl_elem_sort n vec decl

/-- The sort/data-type step of a param-port element, then the assignment. -/
def ppl_elem_sort : Nat → List PParamDecl → PParamDecl →
    PM (Bool × (List PParamDecl × PParamDecl))
  | 0, _, _ => fuelErr
  | n + 1, vec, decl => do
    let r ← (do
      match ← consume_if_kw .typeKw with
      | some _ => do
        let vec2 := if decl.list.isEmpty then vec else vec ++ [decl]
        pure (vec2, (⟨decl.kw, some .kind, []⟩ : PParamDecl))
      | none => do
        match ← parse_data_type n true with
        | some v => do
          let vec2 := if decl.list.isEmpty then vec else vec ++ [decl]
          pure (vec2, (⟨decl.kw, some (.type v), []⟩ : PParamDecl))
        | none => pure (vec, decl))
    let assign ← parse_param_assign n
    pure (true, (r.1, { r.2 with list := r.2.list ++ [assign] }))

/-- The comma loop of `parse_param_port_list`
(`parse_comma_list_unit`, empty allowed, no trailing comma). -/
def ppl_loop : Nat → List PParamDecl × PParamDecl →
    PM (List PParamDecl × PParamDecl)
  | 0, _ => fuelErr
  | n + 1, s => do
    match ← consume_if_op .commaOp with
    | none => pure s
    | some comma => do
      let r ← ppl_elem n s
      if r.1 then ppl_loop n r.2
      else do
        reportSpanP .error "trailing comma is not allowed; consider removing it"
          comma.span
        pure r.2

/-- `parse_param_port_list`. -/
def parse_param_port_list : Nat → PM (Option (List PParamDecl))
  | 0 => fuelErr
  | n + 1 => do
    match ← consume_if_op .hashOp with
    | none => pure none
    | some _ =>
      parse_delim .paren (do
        let s0 : List PParamDecl × PParamDecl := ([], ⟨.parameterKw, none, []⟩)
        let r ← ppl_elem n s0
        let s1 ← (if r.1 then ppl_loop n r.2 else pure r.2)
        let vec := if s1.2.list.isEmpty then s1.1 else s1.1 ++ [s1.2]
        pure (some vec))

end

/-- Running a bound computation steps through the first one. -/
theorem pm_run_bind {α β : Type} (x : PM α) (f : α → PM β) (st : ParState) :
    (x >>= f) st =
      match x st with
      | .ok a st2 => f a st2
      | .fatal st2 => .fatal st2
      | .fuelOut st2 => .fuelOut st2 := rfl

/-- Running `pure`. -/
theorem pm_run_pure {α : Type} (a : α) (st : ParState) :
    (pure a : PM α) st = .ok a st := rfl

/-- `consume_if_op` never aborts. -/
theorem consume_if_op_ok (o : POperator) (st : ParState) :
    ∃ r st2, consume_if_op o st = .ok r st2 := by
  cases st with
  | mk stream diags =>
    cases stream with
    | nil => exact ⟨none, _, rfl⟩
    | cons t r =>
      obtain ⟨k, sp⟩ := t
      cases k <;> simp [consume_if_op, peekT, consumeT, pm_run_bind, pm_run_pure,
        PTok.kind, List.headD] <;> split <;> exact ⟨_, _, rfl⟩

/-- `expect_op` never aborts. -/
theorem expect_op_ok (o : POperator) (st : ParState) :
    ∃ r st2, expect_op o st = .ok r st2 := by
  obtain ⟨r, st2, h⟩ := consume_if_op_ok o st
  cases r with
  | some v =>
    refine ⟨v, st2, ?_⟩
    simp [expect_op, pm_run_bind, pm_run_pure, h]
  | none =>
    refine ⟨.mk .unknown ((st2.stream.headD eofTok).span),
      { st2 with diags := st2.diags ++
        [⟨.error, "expected operator " ++ opName o,
          (st2.stream.headD eofTok).span⟩] }, ?_⟩
    simp [expect_op, pm_run_bind, pm_run_pure, h, peekT, reportSpanP]

/-- `consume_if_id` never aborts. -/
theorem consume_if_id_ok (st : ParState) :
    ∃ r st2, consume_if_id st = .ok r st2 := by
  cases st with
  | mk stream diags =>
    cases stream with
    | nil => exact ⟨none, _, rfl⟩
    | cons t r =>
      obtain ⟨k, sp⟩ := t
      cases k <;> exact ⟨_, _, rfl⟩

/-- `expect_id` never aborts. -/
theorem expect_id_ok (st : ParState) :
    ∃ r st2, expect_id st = .ok r st2 := by
  obtain ⟨r, st2, h⟩ := consume_if_id_ok st
  cases r with
  | some v =>
    refine ⟨v, st2, ?_⟩
    simp [expect_id, pm_run_bind, pm_run_pure, h]
  | none =>
    refine ⟨⟨"", (st2.stream.headD eofTok).span⟩,
      { st2 with diags := st2.diags ++
        [⟨.error, "expected identifier", (st2.stream.headD eofTok).span⟩] }, ?_⟩
    simp [expect_id, pm_run_bind, pm_run_pure, h, peekT, reportSpanP]

/-- Whether a scope value mentions the `Scope::Unit` variant anywhere. -/
def scopeMentionsUnit : PScope → Bool
  | .unitScope => true
  | .localScope => false
  | .scopedName parent _ =>
    match parent with
    | some p => scopeMentionsUnit p
    | none => false

/-- `consume` never aborts. -/
theorem consumeT_ok (st : ParState) : ∃ t st2, consumeT st = .ok t st2 := by
  cases st with
  | mk stream diags => cases stream <;> exact ⟨_, _, rfl⟩

/-- Neither `parse_scope_go` nor `scope_id_part` ever introduces the
`Scope::Unit` variant: any scope they return mentions `Unit` only if the
accumulated scope already did. -/
theorem parse_scope_go_no_unit :
    ∀ (n : Nat) (acc : Option PScope) (st : ParState) (res : Option PScope)
      (st2 : ParState),
      (∀ sc0, acc = some sc0 → scopeMentionsUnit sc0 = false) →
      (parse_scope_go n acc st = .ok res st2 ∨
        scope_id_part n acc st = .ok res st2) →
      ∀ sc, res = some sc → scopeMentionsUnit sc = false := by
  intro n
  induction n with
  | zero =>
    intro acc st res st2 hacc h sc hsc
    rcases h with h | h <;> simp [parse_scope_go, scope_id_part, fuelErr] at h
  | succ n ih =>
    intro acc st res st2 hacc h sc hsc
    rcases h with h | h
    · rw [parse_scope_go, pm_run_bind] at h
      simp only [peekT] at h
      cases hk : scope_step_kind ((st.stream.headD eofTok).kind) <;>
          simp only [hk] at h
      case isLocal =>
        obtain ⟨tok, st3, hc⟩ := consumeT_ok st
        rw [pm_run_bind, hc] at h
        cases acc with
        | none =>
          simp only [pm_run_bind, pm_run_pure] at h
          obtain ⟨t4, st4, he⟩ := expect_op_ok .scopeSepOp st3
          rw [he] at h
          exact ih (some .localScope) st4 res st2
            (fun sc0 h0 => by cases h0; rfl) (Or.inl h) sc hsc
        | some sc0 =>
          simp only [pm_run_bind, pm_run_pure, reportSpanP] at h
          obtain ⟨t4, st4, he⟩ := expect_op_ok .scopeSepOp
            { st3 with diags := st3.diags ++
              [⟨.error, "local scope can only be the outermost scope", tok.span⟩] }
          rw [he] at h
          exact ih (some sc0) st4 res st2 hacc (Or.inl h) sc hsc
      case isUnit =>
        obtain ⟨tok, st3, hc⟩ := consumeT_ok st
        rw [pm_run_bind, hc] at h
        cases acc with
        | none =>
          simp only [pm_run_bind, pm_run_pure] at h
          obtain ⟨t4, st4, he⟩ := expect_op_ok .scopeSepOp st3
          rw [he] at h
          exact ih (some .localScope) st4 res st2
            (fun sc0 h0 => by cases h0; rfl) (Or.inl h) sc hsc
        | some sc0 =>
          simp only [pm_run_bind, pm_run_pure, reportSpanP] at h
          obtain ⟨t4, st4, he⟩ := expect_op_ok .scopeSepOp
            { st3 with diags := st3.diags ++
              [⟨.error, "$unit scope can only be the outermost scope", tok.span⟩] }
          rw [he] at h
          exact ih (some sc0) st4 res st2 hacc (Or.inl h) sc hsc
      case isId =>
        simp only [pm_run_bind, peekN] at h
        by_cases hla : scope_lookahead (st.stream.getD 1 eofTok).kind
            (st.stream.getD 2 eofTok).kind (st.stream.getD 3 eofTok).kind
        · rw [if_pos hla] at h
          exact ih acc st res st2 hacc (Or.inr h) sc hsc
        · rw [if_neg hla] at h
          rw [pm_run_pure] at h
          obtain ⟨h1, h2⟩ := PRes.ok.inj h
          exact hacc sc (h1.trans hsc)
      case isBreak =>
        rw [pm_run_pure] at h
        obtain ⟨h1, h2⟩ := PRes.ok.inj h
        exact hacc sc (h1.trans hsc)
    · rw [scope_id_part, pm_run_bind] at h
      obtain ⟨ident, st3, hi⟩ := expect_id_ok st
      simp only [hi] at h
      rw [pm_run_bind] at h
      obtain ⟨r, st4, hco⟩ := consume_if_op_ok .hashOp st3
      cases r with
      | some v =>
        simp only [hco] at h
        simp [pm_run_bind, reportSpanP, throwFatal] at h
      | none =>
        simp only [hco] at h
        rw [pm_run_bind] at h
        obtain ⟨t5, st5, he⟩ := expect_op_ok .scopeSepOp st4
        simp only [he] at h
        refine ih (some (.scopedName acc ident)) st5 res st2 ?_ (Or.inl h) sc hsc
        intro sc0 h0
        cases h0
        cases acc with
        | none => simp [scopeMentionsUnit]
        | some p => simpa [scopeMentionsUnit] using hacc p rfl

/-- C9: the `$unit ::` branch of `parse_scope` records the outermost scope
as `Scope::Local` — a run on a `$unit ::` prefix is state-for-state
identical to the run on a `local ::` prefix with the same spans — and
`parse_scope` never produces the distinct `Scope::Unit` variant, although
that variant exists in the AST. -/
theorem parse_scope_unit_recorded_as_local :
    (∀ (n : Nat) (sp1 sp2 : Span) (rest : List PTok) (ds : List Diag),
      parse_scope (n + 1)
          ⟨⟨.keyword .unitKw, sp1⟩ :: ⟨.op .scopeSepOp, sp2⟩ :: rest, ds⟩ =
        parse_scope (n + 1)
          ⟨⟨.keyword .localKw, sp1⟩ :: ⟨.op .scopeSepOp, sp2⟩ :: rest, ds⟩) ∧
    (∀ (n : Nat) (st : ParState) (res : Option PScope) (st2 : ParState),
      parse_scope n st = .ok res st2 → ∀ sc, res = some sc →
        scopeMentionsUnit sc = false) := by
  constructor
  · intro n sp1 sp2 rest ds
    rfl
  · intro n st res st2 h sc hsc
    exact parse_scope_go_no_unit n none st res st2 (fun sc0 h0 => by cases h0)
      (Or.inl h) sc hsc

/-- Witness for `parse_scope_unit_recorded_as_local` on the concrete prefix
`$unit :: a` (against `local :: a`) and the run over `$unit ::` alone. -/
theorem parse_scope_unit_recorded_as_local_witness :
    parse_scope 10 ⟨[⟨.keyword .unitKw, ⟨0, 5⟩⟩, ⟨.op .scopeSepOp, ⟨6, 8⟩⟩,
        ⟨.id "a", ⟨9, 10⟩⟩], []⟩ =
      parse_scope 10 ⟨[⟨.keyword .localKw, ⟨0, 5⟩⟩, ⟨.op .scopeSepOp, ⟨6, 8⟩⟩,
        ⟨.id "a", ⟨9, 10⟩⟩], []⟩ ∧
    scopeMentionsUnit PScope.localScope = false :=
  ⟨parse_scope_unit_recorded_as_local.1 9 ⟨0, 5⟩ ⟨6, 8⟩ [⟨.id "a", ⟨9, 10⟩⟩] [],
   parse_scope_unit_recorded_as_local.2 10
     ⟨[⟨.keyword .unitKw, ⟨0, 5⟩⟩, ⟨.op .scopeSepOp, ⟨6, 8⟩⟩], []⟩
     (some .localScope) ⟨[], []⟩ rfl .localScope rfl⟩

/-- The inner token deque of the parameter port list
`#(parameter int W = 8, type T = logic, localparam int D = 4)` as a lexer
would produce it (`int` is not in the closed keyword enum and lexes as an
identifier). -/
def s6Inner : List PTok :=
  [⟨.keyword .parameterKw, ⟨2, 11⟩⟩, ⟨.id "int", ⟨12, 15⟩⟩, ⟨.id "W", ⟨16, 17⟩⟩,
   ⟨.op .assignOp, ⟨18, 19⟩⟩, ⟨.integerLiteral 8, ⟨20, 21⟩⟩,
   ⟨.op .commaOp, ⟨21, 22⟩⟩, ⟨.keyword .typeKw, ⟨23, 27⟩⟩, ⟨.id "T", ⟨28, 29⟩⟩,
   ⟨.op .assignOp, ⟨30, 31⟩⟩, ⟨.keyword .logicKw, ⟨32, 37⟩⟩,
   ⟨.op .commaOp, ⟨37, 38⟩⟩, ⟨.keyword .localparamKw, ⟨39, 49⟩⟩,
   ⟨.id "int", ⟨50, 53⟩⟩, ⟨.id "D", ⟨54, 55⟩⟩, ⟨.op .assignOp, ⟨56, 57⟩⟩,
   ⟨.integerLiteral 4, ⟨58, 59⟩⟩]

/-- The S6 stream: `#` followed by the parenthesis group. -/
def s6Stream : List PTok :=
  [⟨.op .hashOp, ⟨0, 1⟩⟩,
   ⟨.delimGroup .paren (.mk ⟨.unknown, ⟨1, 2⟩⟩ ⟨.unknown, ⟨59, 60⟩⟩ s6Inner),
    ⟨1, 60⟩⟩]

/-- C8 amended: on the S6 input the parser does NOT produce three
`ParamDecl`s.  `int` is not a keyword and `parse_data_type` rejects it, so
`parse_param_assign` takes `int` as the parameter name, then sees `W` and
reports "this looks like a data type but it is not declared"; the second
element's initializer `logic` is not a parseable expression, so
`parse_unwrap` reports the fatal "expression support is not completed yet"
and the whole parse aborts through the `Err` channel. -/
theorem parse_param_port_list_s6_aborts :
    parse_param_port_list 40 ⟨s6Stream, []⟩ =
      .fatal ⟨s6Inner.drop 9,
        [⟨.error, "this looks like a data type but it is not declared", ⟨12, 15⟩⟩,
         ⟨.fatal, "expression support is not completed yet", ⟨32, 37⟩⟩]⟩ := rfl

/-- C8 counterexample: the S6 parse never returns a `ParamDecl` list at all
(the claim expects exactly three specific `ParamDecl`s). -/
theorem parse_param_port_list_s6_no_decls :
    parse_param_port_list 40 ⟨s6Stream, []⟩ =
      PRes.fatal ⟨s6Inner.drop 9,
        [⟨.error, "this looks like a data type but it is not declared", ⟨12, 15⟩⟩,
         ⟨.fatal, "expression support is not completed yet", ⟨32, 37⟩⟩]⟩ := rfl

/-!
Stack-machine invariants of the preprocessor, used to settle the output
claims: the bottom deque of `stacks` is always a suffix of the lexed input,
and every token in the deques above it is a macro-expansion clone whose span
was rewritten to the span of some input directive token.
-/

/-- Token kinds stripped from the preprocessor output. -/
def isBadKind : TokKind → Bool
  | .newLine => true
  | .lineComment => true
  | .directive _ => true
  | _ => false

/-- Newline and line-comment kinds. -/
def isNLCKind : TokKind → Bool
  | .newLine => true
  | .lineComment => true
  | _ => false

/-- Directive kinds. -/
def isDirKind : TokKind → Bool
  | .directive _ => true
  | _ => false

/-- Spans of the directive tokens of the input. -/
def dirSpans (input : List Tok) : List Span :=
  (input.filter (fun t => isDirKind t.kind)).map Tok.span

/-- The bottom deque of the stack (the one fed by the lexer). -/
def botOf (s : List (List Tok)) : List Tok :=
  s.getLast?.getD []

/-- Invariant on `stacks`, parametrised by a predicate on expansion tokens:
the bottom deque is a suffix of the input and every token of the deques
above it (all of which were pushed as macro expansions) satisfies `P`. -/
def StacksP (P : Tok → Prop) (input : List Tok) : List (List Tok) → Prop
  | [] => True
  | [bot] => ∃ k, bot = List.drop k input
  | d :: d2 :: rest =>
    (∀ t ∈ d, P t) ∧ StacksP P input (d2 :: rest)

/-- `botOf` skips a leading deque when more follow. -/
theorem botOf_cons₂ (d d2 : List Tok) (rest : List (List Tok)) :
    botOf (d :: d2 :: rest) = botOf (d2 :: rest) := by
  simp [botOf, List.getLast?_cons_cons]

/-- `botOf` of a singleton. -/
theorem botOf_single (d : List Tok) : botOf [d] = d := by
  simp [botOf]

/-- A successful `nextRaw` preserves `StacksP`; the popped token either
comes from an upper deque (so satisfies `P`, bottom untouched, and at
least two deques remain) or is the head of the bottom deque (in which
case all upper deques are gone). -/
theorem nextRaw_ok {P : Tok → Prop} {input : List Tok} :
    ∀ {s : List (List Tok)} {t : Tok} {s2 : List (List Tok)},
      StacksP P input s → nextRaw s = (some t, s2) →
      StacksP P input s2 ∧ botOf s2 <:+ botOf s ∧
        ((∃ d tail, s2 = d :: tail ∧ tail ≠ [] ∧ P t ∧
            botOf s2 = botOf s)
         ∨ (∃ b, s2 = [b] ∧ t :: b = botOf s)) := by
  intro s
  induction s with
  | nil =>
    intro t s2 hok h
    simp [nextRaw] at h
  | cons d rest ih =>
    intro t s2 hok h
    cases rest with
    | nil =>
      cases d with
      | nil => simp [nextRaw] at h
      | cons x xs =>
        rw [nextRaw] at h
        obtain ⟨h1, h2⟩ := Prod.mk.injEq .. ▸ h
        obtain rfl := Option.some_inj.mp h1
        subst h2
        obtain ⟨k, hk⟩ := hok
        refine ⟨⟨k + 1, ?_⟩, ?_, Or.inr ⟨xs, rfl, ?_⟩⟩
        · rw [← List.tail_drop, ← hk]
          rfl
        · simp only [botOf_single]
          exact ⟨[x], rfl⟩
        · simp [botOf_single]
    | cons d2 rest2 =>
      cases d with
      | nil =>
        rw [nextRaw] at h
        obtain ⟨hd, htl⟩ := hok
        obtain ⟨o1, o2, o3⟩ := ih htl h
        refine ⟨o1, ?_, o3⟩
        rw [botOf_cons₂]
        exact o2
      | cons x xs =>
        rw [nextRaw] at h
        obtain ⟨h1, h2⟩ := Prod.mk.injEq .. ▸ h
        obtain rfl := Option.some_inj.mp h1
        subst h2
        obtain ⟨hd, htl⟩ := hok
        refine ⟨⟨fun t2 ht2 => hd t2 (List.mem_cons_of_mem x ht2), htl⟩, ?_, ?_⟩
        · rw [botOf_cons₂, botOf_cons₂]
        · refine Or.inl ⟨xs, d2 :: rest2, rfl, by simp, hd x (by simp), ?_⟩
          rw [botOf_cons₂, botOf_cons₂]

/-- An exhausted `nextRaw` has removed every (empty) deque. -/
theorem nextRaw_none : ∀ {s s2 : List (List Tok)}, nextRaw s = (none, s2) →
    s2 = [] := by
  intro s
  induction s with
  | nil =>
    intro s2 h
    simpa [nextRaw] using (Prod.mk.injEq .. ▸ h).2.symm
  | cons d rest ih =>
    intro s2 h
    cases d with
    | nil => exact ih h
    | cons x xs => simp [nextRaw] at h

/-- Under the invariant, the bottom deque is some suffix of the input. -/
theorem StacksP_botOf {P : Tok → Prop} {input : List Tok} :
    ∀ {s : List (List Tok)}, StacksP P input s → ∃ k, botOf s = List.drop k input := by
  intro s
  induction s with
  | nil =>
    intro _
    exact ⟨input.length, by simp [botOf]⟩
  | cons d rest ih =>
    intro hok
    cases rest with
    | nil =>
      obtain ⟨k, hk⟩ := hok
      exact ⟨k, by simpa [botOf_single] using hk⟩
    | cons d2 rest2 =>
      obtain ⟨o, hk⟩ := ih hok.2
      exact ⟨o, by rwa [botOf_cons₂]⟩

/-- `skip_tokens` preserves the stack invariant; the bottom deque only
shrinks (the pushed-back branching directive goes back where it came from). -/
theorem skipTokensF_ok {P : Tok → Prop} {input : List Tok} :
    ∀ (fuel : Nat) (s : List (List Tok)), StacksP P input s →
      StacksP P input (skipTokensF fuel s) ∧
        botOf (skipTokensF fuel s) <:+ botOf s := by
  intro fuel
  induction fuel with
  | zero =>
    intro s hok
    exact ⟨hok, List.suffix_refl _⟩
  | succ n ih =>
    intro s hok
    rw [skipTokensF]
    cases hn : nextRaw s with
    | mk o s2 =>
      cases o with
      | none =>
        obtain rfl := nextRaw_none hn
        exact ⟨trivial, by simp [botOf]⟩
      | some t =>
        obtain ⟨hok2, hsuf, hd⟩ := nextRaw_ok hok hn
        cases hkind : t.kind
        case directive name =>
          simp only [hkind]
          by_cases hbr : isBranchingDirective name
          · rw [if_pos hbr]
            rcases hd with ⟨d, tail, rfl, hne, hsp, hbot⟩ | ⟨b, rfl, hcons⟩
            · cases tail with
              | nil => exact absurd rfl hne
              | cons d2 rest2 =>
                rw [pushbackRaw]
                refine ⟨⟨fun t2 ht2 => ?_, hok2.2⟩, ?_⟩
                · rcases List.mem_cons.mp ht2 with rfl | h2
                  · exact hsp
                  · exact hok2.1 t2 h2
                · rw [botOf_cons₂]
                  rw [botOf_cons₂] at hbot
                  rw [hbot]
            · obtain ⟨k, hk⟩ := StacksP_botOf hok
              rw [pushbackRaw]
              constructor
              · exact ⟨k, hcons.trans hk⟩
              · rw [botOf_single, hcons]
          · rw [if_neg hbr]
            obtain ⟨o1, o2⟩ := ih s2 hok2
            exact ⟨o1, o2.trans hsuf⟩
        all_goals
          simp only [hkind]
          obtain ⟨o1, o2⟩ := ih s2 hok2
          exact ⟨o1, o2.trans hsuf⟩

/-- `read_until_newline` preserves the stack invariant; the bottom deque
only shrinks (the loop only pops tokens). -/
theorem readUntilNewlineF_ok {P : Tok → Prop} {input : List Tok} :
    ∀ (fuel : Nat) (s : List (List Tok)), StacksP P input s →
      StacksP P input (readUntilNewlineF fuel s).2 ∧
        botOf (readUntilNewlineF fuel s).2 <:+ botOf s := by
  intro fuel
  induction fuel with
  | zero =>
    intro s hok
    exact ⟨hok, List.suffix_refl _⟩
  | succ n ih =>
    intro s hok
    rw [readUntilNewlineF]
    cases hn : nextRaw s with
    | mk o s2 =>
      cases o with
      | none =>
        obtain rfl := nextRaw_none hn
        exact ⟨trivial, by simp [botOf]⟩
      | some t =>
        obtain ⟨hok2, hsuf, _⟩ := nextRaw_ok hok hn
        cases hkind : t.kind
        case newLine =>
          simp only [hkind]
          exact ⟨hok2, hsuf⟩
        case lineComment =>
          simp only [hkind]
          exact ⟨hok2, hsuf⟩
        all_goals
          simp only [hkind]
          obtain ⟨o1, o2⟩ := ih s2 hok2
          exact ⟨o1, o2.trans hsuf⟩

/-- `expect_id` preserves the stack invariant; the bottom deque only
shrinks. -/
theorem expectId_ok {P : Tok → Prop} (input : List Tok) {s : List (List Tok)}
    (hok : StacksP P input s) :
    StacksP P input (expectId s).2 ∧ botOf (expectId s).2 <:+ botOf s := by
  rw [expectId]
  cases hn : nextRaw s with
  | mk o s2 =>
    cases o with
    | none =>
      obtain rfl := nextRaw_none hn
      exact ⟨trivial, by simp [botOf]⟩
    | some t =>
      obtain ⟨hok2, hsuf, _⟩ := nextRaw_ok hok hn
      cases t with
      | mk k sp =>
        cases k
        all_goals exact ⟨hok2, hsuf⟩

/-- `skip_tokens` at its standard fuel preserves the invariant. -/
theorem skipTokens_ok {P : Tok → Prop} (input : List Tok) {s : List (List Tok)}
    (hok : StacksP P input s) :
    StacksP P input (skipTokens s) ∧ botOf (skipTokens s) <:+ botOf s :=
  skipTokensF_ok _ s hok

/-- `read_until_newline` at its standard fuel preserves the invariant. -/
theorem readUntilNewline_ok {P : Tok → Prop} {input : List Tok}
    {s : List (List Tok)} (hok : StacksP P input s) :
    StacksP P input (readUntilNewline s).2 ∧
      botOf (readUntilNewline s).2 <:+ botOf s :=
  readUntilNewlineF_ok _ s hok

/-- Pushing a macro-expansion deque whose tokens satisfy `P` onto a
nonempty stack preserves the invariant and the bottom deque. -/
theorem StacksP_push {P : Tok → Prop} {input : List Tok} {s : List (List Tok)}
    (hok : StacksP P input s) (hne : s ≠ []) (d : List Tok)
    (hd : ∀ t ∈ d, P t) :
    StacksP P input (d :: s) ∧ botOf (d :: s) = botOf s := by
  cases s with
  | nil => exact absurd rfl hne
  | cons d2 rest => exact ⟨⟨hd, hok⟩, botOf_cons₂ ..⟩

/-- A successful `parse_define` preserves the stack invariant; the bottom
deque only shrinks (the macro table absorbs the body tokens). -/
theorem parseDefine_ok {P : Tok → Prop} {input : List Tok} {sp : Span}
    {st st2 : PPState} (hok : StacksP P input st.stks)
    (h : parseDefine sp st = some st2) :
    StacksP P input st2.stks ∧ botOf st2.stks <:+ botOf st.stks := by
  rw [parseDefine] at h
  obtain ⟨hok1, hbot1⟩ := expectId_ok input hok
  cases he : expectId st.stks with
  | mk o stks' =>
    rw [he] at hok1 hbot1
    cases o with
    | none =>
      simp only [he, Option.some.injEq] at h
      obtain ⟨hok2, hbot2⟩ := readUntilNewline_ok (s := stks') hok1
      subst h
      exact ⟨hok2, hbot2.trans hbot1⟩
    | some nm =>
      cases nm with
      | mk name nsp =>
        simp only [he] at h
        by_cases hdir : isDirectiveName name = true
        · rw [if_pos hdir] at h
          obtain ⟨hok2, hbot2⟩ := readUntilNewline_ok (s := stks') hok1
          simp only [Option.some.injEq] at h
          subst h
          exact ⟨hok2, hbot2.trans hbot1⟩
        · rw [if_neg hdir] at h
          cases stks' with
          | nil => exact Option.noConfusion h
          | cons d rest =>
            cases d with
            | nil => exact Option.noConfusion h
            | cons p ds =>
              simp only [] at h
              by_cases hp : (match p.kind with
                  | TokKind.openParen => p.span.lo == nsp.hi
                  | _ => false) = true
              · rw [if_pos hp] at h
                obtain ⟨hok2, hbot2, _⟩ :=
                  nextRaw_ok (t := p) hok1 rfl
                simp only [Option.some.injEq] at h
                subst h
                exact ⟨hok2, hbot2.trans hbot1⟩
              · rw [if_neg hp] at h
                obtain ⟨hok2, hbot2⟩ :=
                  readUntilNewline_ok (s := (p :: ds) :: rest) hok1
                cases hm : macroFind st.macroDefs name with
                | none =>
                  simp only [hm, Option.some.injEq] at h
                  subst h
                  exact ⟨hok2, hbot2.trans hbot1⟩
                | some old =>
                  cases old with
                  | mk oldSp oldBody =>
                    simp only [hm, Option.some.injEq] at h
                    subst h
                    exact ⟨hok2, hbot2.trans hbot1⟩

/-- `parse_ifdef` preserves the stack invariant; the bottom deque only
shrinks. -/
theorem parseIfdef_ok {P : Tok → Prop} {input : List Tok} (sp : Span)
    (cond : Bool) (st : PPState) (hok : StacksP P input st.stks) :
    StacksP P input (parseIfdef sp cond st).stks ∧
      botOf (parseIfdef sp cond st).stks <:+ botOf st.stks := by
  have hep := expectId_ok input hok
  have hsk := skipTokens_ok input hok
  have hes := skipTokens_ok input hep.1
  rw [parseIfdef]
  split
  · exact hsk
  · dsimp only
    split <;> split <;>
      first
        | exact hep
        | exact ⟨hes.1, hes.2.trans hep.2⟩

/-- `parse_elsif` preserves the stack invariant; the bottom deque only
shrinks. -/
theorem parseElsif_ok {P : Tok → Prop} {input : List Tok} (sp : Span)
    (st : PPState) (hok : StacksP P input st.stks) :
    StacksP P input (parseElsif sp st).stks ∧
      botOf (parseElsif sp st).stks <:+ botOf st.stks := by
  have hep := expectId_ok input hok
  have hsk := skipTokens_ok input hok
  have hes := skipTokens_ok input hep.1
  rw [parseElsif]
  split
  · exact ⟨hok, List.suffix_refl _⟩
  · exact hsk
  · exact hsk
  · dsimp only
    split
    · exact hsk
    · split <;> split <;>
        first
          | exact hep
          | exact ⟨hes.1, hes.2.trans hep.2⟩

/-- `parse_else` preserves the stack invariant; the bottom deque only
shrinks. -/
theorem parseElse_ok {P : Tok → Prop} {input : List Tok} (sp : Span)
    (st : PPState) (hok : StacksP P input st.stks) :
    StacksP P input (parseElse sp st).stks ∧
      botOf (parseElse sp st).stks <:+ botOf st.stks := by
  have hsk := skipTokens_ok input hok
  rw [parseElse]
  split
  · exact ⟨hok, List.suffix_refl _⟩
  · exact hsk
  · exact hsk
  · dsimp only
    split
    · exact hsk
    · exact ⟨hok, List.suffix_refl _⟩

/-- `parse_endif` preserves the stack invariant; the bottom deque only
shrinks. -/
theorem parseEndif_ok {P : Tok → Prop} {input : List Tok} (sp : Span)
    (st : PPState) (hok : StacksP P input st.stks) :
    StacksP P input (parseEndif sp st).stks ∧
      botOf (parseEndif sp st).stks <:+ botOf st.stks := by
  have hsk := skipTokens_ok input hok
  rw [parseEndif]
  split
  · exact ⟨hok, List.suffix_refl _⟩
  · split
    · exact hsk
    · exact ⟨hok, List.suffix_refl _⟩

/-- A non-panicking `process_directive` dispatch preserves the stack
invariant, provided the stack is nonempty (which holds right after a token
was popped) and any expansion of the named macro would push only tokens
satisfying `P`. -/
theorem processDirective_ok {P : Tok → Prop} {input : List Tok} {name : String}
    {sp : Span} {afterNL : Bool} {st st2 : PPState}
    (hok : StacksP P input st.stks) (hne : st.stks ≠ [])
    (hexp : ∀ spd body, macroFind st.macroDefs name = some (spd, body) →
        ∀ t ∈ body, P { t with span := sp })
    (h : processDirective name sp afterNL st = some st2) :
    StacksP P input st2.stks ∧ botOf st2.stks <:+ botOf st.stks := by
  rw [processDirective] at h
  by_cases h1 : name = "resetall"
  · rw [if_pos h1] at h
    simp only [Option.some.injEq] at h
    subst h
    exact ⟨hok, List.suffix_refl _⟩
  · rw [if_neg h1] at h
    by_cases h2 : name = "include"
    · rw [if_pos h2] at h
      simp only [Option.some.injEq] at h
      subst h
      cases afterNL <;> exact ⟨hok, List.suffix_refl _⟩
    · rw [if_neg h2] at h
      by_cases h3 : name = "define"
      · rw [if_pos h3] at h
        exact parseDefine_ok hok h
      · rw [if_neg h3] at h
        by_cases h4 : name = "undef"
        · rw [if_pos h4] at h
          simp only [Option.some.injEq] at h
          subst h
          exact ⟨hok, List.suffix_refl _⟩
        · rw [if_neg h4] at h
          by_cases h5 : name = "undefineall"
          · rw [if_pos h5] at h
            simp only [Option.some.injEq] at h
            subst h
            exact ⟨hok, List.suffix_refl _⟩
          · rw [if_neg h5] at h
            by_cases h6 : name = "ifdef"
            · rw [if_pos h6] at h
              simp only [Option.some.injEq] at h
              subst h
              exact parseIfdef_ok sp true st hok
            · rw [if_neg h6] at h
              by_cases h7 : name = "ifndef"
              · rw [if_pos h7] at h
                simp only [Option.some.injEq] at h
                subst h
                exact parseIfdef_ok sp false st hok
              · rw [if_neg h7] at h
                by_cases h8 : name = "else"
                · rw [if_pos h8] at h
                  simp only [Option.some.injEq] at h
                  subst h
                  exact parseElse_ok sp st hok
                · rw [if_neg h8] at h
                  by_cases h9 : name = "elsif"
                  · rw [if_pos h9] at h
                    simp only [Option.some.injEq] at h
                    subst h
                    exact parseElsif_ok sp st hok
                  · rw [if_neg h9] at h
                    by_cases h10 : name = "endif"
                    · rw [if_pos h10] at h
                      simp only [Option.some.injEq] at h
                      subst h
                      exact parseEndif_ok sp st hok
                    · rw [if_neg h10] at h
                      by_cases h11 : name = "timescale" ∨ name = "default_nettype"
                          ∨ name = "unconnected_drive" ∨ name = "nounconnected_drive"
                          ∨ name = "celldefine" ∨ name = "endcelldefine" ∨ name = "pragma"
                          ∨ name = "line" ∨ name = "__FILE__" ∨ name = "__LINE__"
                          ∨ name = "begin_keywords" ∨ name = "end_keywords"
                      · rw [if_pos h11] at h
                        simp only [Option.some.injEq] at h
                        subst h
                        exact ⟨hok, List.suffix_refl _⟩
                      · rw [if_neg h11] at h
                        cases hm : macroFind st.macroDefs name with
                        | none =>
                          simp only [hm, Option.some.injEq] at h
                          subst h
                          exact ⟨hok, List.suffix_refl _⟩
                        | some bd =>
                          cases bd with
                          | mk spd body =>
                            simp only [hm, Option.some.injEq] at h
                            subst h
                            have hd : ∀ t2 ∈ List.map (fun t => { t with span := sp }) body, P t2 := by
                              intro t2 ht2
                              obtain ⟨t, ht, rfl⟩ := List.mem_map.mp ht2
                              exact hexp spd body hm t ht
                            obtain ⟨hp1, hp2⟩ := StacksP_push hok hne _ hd
                            refine ⟨hp1, ?_⟩
                            rw [show ({ st with
                                  stks := List.map (fun t => { t with span := sp }) body :: st.stks
                                } : PPState).stks
                                = List.map (fun t => { t with span := sp }) body :: st.stks from rfl]
                            rw [hp2]

/-- A terminating `process` run preserves the span-tracking stack invariant;
the bottom deque only shrinks, and a returned token is never a newline,
line comment or directive, and either is a macro-expansion clone (span of
an input directive) or was consumed from the bottom deque (so extends the
remaining bottom suffix). -/
theorem process_ok {input : List Tok} :
    ∀ (n : Nat) (b : Bool) (st : PPState) (o : Option Tok) (st2 : PPState),
      StacksP (fun t => t.span ∈ dirSpans input) input st.stks →
      process n b st = .ok o st2 →
      StacksP (fun t => t.span ∈ dirSpans input) input st2.stks ∧
        botOf st2.stks <:+ botOf st.stks ∧
        (∀ t, o = some t → isBadKind t.kind = false ∧
           (t.span ∈ dirSpans input ∨ t :: botOf st2.stks <:+ botOf st.stks)) := by
  intro n
  induction n with
  | zero =>
    intro b st o st2 _ h
    exact PPRes.noConfusion h
  | succ n ih =>
    intro b st o st2 hok h
    rw [process] at h
    cases hn : nextRaw st.stks with
    | mk ot stks' =>
      simp only [hn] at h
      cases ot with
      | none =>
        obtain rfl := nextRaw_none hn
        injection h with h1 h2
        subst h1
        subst h2
        refine ⟨trivial, ?_, fun t ht => Option.noConfusion ht⟩
        rw [show ({ st with stks := ([] : List (List Tok)) } : PPState).stks
          = [] from rfl]
        rw [show botOf [] = [] from rfl]
        exact List.nil_suffix
      | some t =>
        obtain ⟨hok2, hsuf, hd⟩ := nextRaw_ok hok hn
        cases hkind : t.kind
        case newLine =>
          simp only [hkind] at h
          obtain ⟨a1, a2, a3⟩ := ih true _ o st2 hok2 h
          exact ⟨a1, a2.trans hsuf, fun t2 ht2 =>
            ⟨(a3 t2 ht2).1, ((a3 t2 ht2).2).imp id (fun hr => hr.trans hsuf)⟩⟩
        case lineComment =>
          simp only [hkind] at h
          obtain ⟨a1, a2, a3⟩ := ih true _ o st2 hok2 h
          exact ⟨a1, a2.trans hsuf, fun t2 ht2 =>
            ⟨(a3 t2 ht2).1, ((a3 t2 ht2).2).imp id (fun hr => hr.trans hsuf)⟩⟩
        case directive name =>
          simp only [hkind] at h
          have hne : stks' ≠ [] := by
            rcases hd with ⟨d, tail, rfl, _, _, _⟩ | ⟨b2, rfl, _⟩ <;>
              exact List.cons_ne_nil _ _
          have hsp : t.span ∈ dirSpans input := by
            rcases hd with ⟨d, tail, heq, _, hspan, _⟩ | ⟨b2, heq, hcons⟩
            · exact hspan
            · have hbotmem : t ∈ botOf st.stks := by
                rw [← hcons]
                exact List.mem_cons_self _ _
              obtain ⟨k, hk⟩ := StacksP_botOf hok
              have htin : t ∈ input := by
                rw [hk] at hbotmem
                exact List.mem_of_mem_drop hbotmem
              refine List.mem_map.mpr ⟨t, List.mem_filter.mpr ⟨htin, ?_⟩, rfl⟩
              rw [hkind]
              rfl
          cases hpd : processDirective name t.span b { st with stks := stks' } with
          | none =>
            rw [hpd] at h
            exact PPRes.noConfusion h
          | some st3 =>
            rw [hpd] at h
            have hexp : ∀ spd body,
                macroFind ({ st with stks := stks' } : PPState).macroDefs name =
                  some (spd, body) →
                ∀ t2 ∈ body, (fun t3 => t3.span ∈ dirSpans input)
                  { t2 with span := t.span } := by
              intro spd body _ t2 _
              exact hsp
            obtain ⟨hok3, hsuf3⟩ := processDirective_ok hok2 hne hexp hpd
            obtain ⟨a1, a2, a3⟩ := ih false st3 o st2 hok3 h
            exact ⟨a1, a2.trans (hsuf3.trans hsuf), fun t2 ht2 =>
              ⟨(a3 t2 ht2).1,
               ((a3 t2 ht2).2).imp id (fun hr => hr.trans (hsuf3.trans hsuf))⟩⟩
        all_goals
          simp only [hkind] at h
          injection h with h1 h2
          subst h2
          refine ⟨hok2, hsuf, fun t2 ht2 => ?_⟩
          rw [← h1] at ht2
          injection ht2 with ht3
          subst ht3
          refine ⟨by rw [hkind]; rfl, ?_⟩
          rcases hd with ⟨d, tail, heq, _, hspan, _⟩ | ⟨b2, heq, hcons⟩
          · exact Or.inl hspan
          · refine Or.inr ?_
            rw [heq, botOf_single, hcons]

/-- A lexer produces strictly increasing byte ranges; the faithful
abstraction used for the ordering claim is that all spans of the lexed
input are pairwise distinct. -/
def DistinctSpans (input : List Tok) : Prop :=
  input.Pairwise (fun a b => a.span ≠ b.span)

/-- With pairwise-distinct spans, a span determines the input token. -/
theorem span_inj {input : List Tok} (hds : DistinctSpans input) :
    ∀ {t u : Tok}, t ∈ input → u ∈ input → t.span = u.span → t = u := by
  induction input with
  | nil =>
    intro t u ht _ _
    exact absurd ht (List.not_mem_nil t)
  | cons a rest ih =>
    intro t u ht hu hsp
    obtain ⟨ha, hrest⟩ := List.pairwise_cons.mp hds
    rcases List.mem_cons.mp ht with rfl | ht2 <;>
      rcases List.mem_cons.mp hu with rfl | hu2
    · rfl
    · exact absurd hsp (ha u hu2)
    · exact absurd hsp.symm (ha t ht2)
    · exact ih hrest ht2 hu2 hsp

/-- A directive kind is one of the kinds stripped from the output. -/
theorem isDirKind_bad {k : TokKind} (h : isDirKind k = true) :
    isBadKind k = true := by
  cases k <;> first | rfl | exact Bool.noConfusion h

/-- With pairwise-distinct spans, a non-stripped token whose span is the
span of an input directive cannot itself be an input token. -/
theorem not_mem_of_dirSpan {input : List Tok} {t : Tok}
    (hds : DistinctSpans input) (hbad : isBadKind t.kind = false)
    (hsp : t.span ∈ dirSpans input) : t ∉ input := by
  intro hmem
  obtain ⟨u, hu, huSp⟩ := List.mem_map.mp hsp
  obtain ⟨huIn, huDir⟩ := List.mem_filter.mp hu
  obtain rfl := span_inj hds hmem huIn huSp.symm
  rw [isDirKind_bad huDir] at hbad
  exact Bool.noConfusion hbad

/-- A terminating `all` run emits only tokens that are clean (not newline,
line comment or directive) and are either expansion clones or input
tokens; the emitted non-clone tokens form a sublist of the bottom deque. -/
theorem allF_ok {input : List Tok} :
    ∀ (n : Nat) (st : PPState) (out : List Tok) (st2 : PPState),
      StacksP (fun t => t.span ∈ dirSpans input) input st.stks →
      allF n st = .ok out st2 →
      (∀ t ∈ out, isBadKind t.kind = false ∧
        (t.span ∈ dirSpans input ∨ t ∈ input)) ∧
        List.Sublist
          (out.filter (fun t => !decide (t.span ∈ dirSpans input)))
          (botOf st.stks) := by
  intro n
  induction n with
  | zero =>
    intro st out st2 _ h
    exact AllRes.noConfusion h
  | succ n ih =>
    intro st out st2 hok h
    rw [allF] at h
    cases hp : process (n + 1) false st with
    | fuelOut =>
      rw [hp] at h
      exact AllRes.noConfusion h
    | panicked =>
      rw [hp] at h
      exact AllRes.noConfusion h
    | ok o st3 =>
      simp only [hp] at h
      obtain ⟨hok3, hsuf3, hts⟩ := process_ok (n + 1) false st o st3 hok hp
      cases o with
      | none =>
        injection h with h1 h2
        subst h1
        exact ⟨fun t ht => absurd ht (List.not_mem_nil t), List.nil_sublist _⟩
      | some t =>
        obtain ⟨hbad, hor⟩ := hts t rfl
        have htin : t.span ∈ dirSpans input ∨ t ∈ input := by
          refine hor.imp id (fun hr => ?_)
          obtain ⟨k, hk⟩ := StacksP_botOf hok
          have : t ∈ botOf st.stks :=
            hr.subset (List.mem_cons_self _ _)
          rw [hk] at this
          exact List.mem_of_mem_drop this
        cases ha : allF n st3 with
        | fuelOut =>
          simp only [ha] at h
          exact AllRes.noConfusion h
        | panicked =>
          simp only [ha] at h
          exact AllRes.noConfusion h
        | ok toks st4 =>
          simp only [ha] at h
          obtain ⟨ihmem, ihsub⟩ := ih st3 toks st4 hok3 ha
          have hout : out = t :: toks := by
            injection h with h1 h2
            rw [← h1]
            cases hkind : t.kind <;>
              first
                | rfl
                | (rw [hkind] at hbad; exact Bool.noConfusion hbad)
          subst hout
          constructor
          · intro t2 ht2
            rcases List.mem_cons.mp ht2 with rfl | ht3
            · exact ⟨hbad, htin⟩
            · exact ihmem t2 ht3
          · rw [List.filter_cons]
            by_cases hsp : t.span ∈ dirSpans input
            · rw [if_neg (by simp [hsp])]
              exact ihsub.trans (hsuf3.sublist)
            · rw [if_pos (by simp [hsp])]
              have hbot : t :: botOf st3.stks <:+ botOf st.stks :=
                hor.resolve_left hsp
              exact (List.cons_sublist_cons.mpr ihsub).trans hbot.sublist

/-- **C2.** For every input, a terminating run of the preprocessor entry
point `pp` emits a deque with no newline, line-comment or directive token;
and — for a lexed input, abstracted as one with pairwise-distinct token
spans — the emitted tokens that are input tokens (the non-expansion ones)
form a sublist of the input, i.e. they appear in their original relative
order. -/
theorem pp_output_clean (fuel : Nat) (input out : List Tok) (st2 : PPState)
    (h : pp fuel input = .ok out st2) :
    (∀ t ∈ out, isBadKind t.kind = false) ∧
    (DistinctSpans input →
      List.Sublist (out.filter (fun t => decide (t ∈ input))) input) := by
  have hok : StacksP (fun t => t.span ∈ dirSpans input) input
      (ppInit input).stks := ⟨0, rfl⟩
  obtain ⟨hmem, hsub⟩ := allF_ok fuel (ppInit input) out st2 hok h
  refine ⟨fun t ht => (hmem t ht).1, fun hds => ?_⟩
  have hcong : out.filter (fun t => decide (t ∈ input)) =
      out.filter (fun t => !decide (t.span ∈ dirSpans input)) := by
    apply List.filter_congr
    intro t ht
    obtain ⟨hbad, hor⟩ := hmem t ht
    by_cases hsp : t.span ∈ dirSpans input
    · have hnm : t ∉ input := not_mem_of_dirSpan hds hbad hsp
      simp [hsp, hnm]
    · have hm : t ∈ input := hor.resolve_left hsp
      simp [hsp, hm]
  rw [hcong]
  have hbot : botOf (ppInit input).stks = input := botOf_single input
  rw [hbot] at hsub
  exact hsub

/-- Lexed form of ``​`define W 8`` then `x` and an invocation ``​`W``: input
for the `pp_output_clean` witness. -/
def cleanDefineUseInput : List Tok :=
  [⟨.directive "define", ⟨0, 7⟩⟩, ⟨.id "W", ⟨8, 9⟩⟩, ⟨.intLit 8, ⟨10, 11⟩⟩,
   ⟨.newLine, ⟨11, 12⟩⟩, ⟨.id "x", ⟨13, 14⟩⟩, ⟨.directive "W", ⟨15, 17⟩⟩,
   ⟨.newLine, ⟨17, 18⟩⟩]

/-- Output deque of the `pp_output_clean` witness run: the literal `x` and
the expansion clone `8` carrying the invocation span. -/
def cleanDefineUseOut : List Tok :=
  [⟨.id "x", ⟨13, 14⟩⟩, ⟨.intLit 8, ⟨15, 17⟩⟩]

/-- Witness for `pp_output_clean` on a concrete run with one macro
definition and one expansion. -/
theorem pp_output_clean_witness :
    (∀ t ∈ cleanDefineUseOut, isBadKind t.kind = false) ∧
    (DistinctSpans cleanDefineUseInput →
      List.Sublist
        (cleanDefineUseOut.filter (fun t => decide (t ∈ cleanDefineUseInput)))
        cleanDefineUseInput) :=
  pp_output_clean 30 cleanDefineUseInput cleanDefineUseOut
    ⟨[], [("W", ⟨8, 9⟩, [⟨.intLit 8, ⟨10, 11⟩⟩])], [], []⟩ (by decide)

/-!
Termination of the preprocessor (claim C5).  The divergence witnessed by
`pp_self_macro_diverges` needs a macro whose body holds a directive token;
when every ``​`define`` body in the input is directive-free, each `process`
iteration strictly decreases the measure `totalToks + (N+1)·dirCount`
(where `N` is the input length), because an expansion removes one directive
token from the stack and pushes at most `N` directive-free clones.
-/

/-- Number of directive tokens in one deque. -/
def dirCountD (d : List Tok) : Nat :=
  (d.filter (fun t => isDirKind t.kind)).length

/-- Number of directive tokens in the whole stack of deques. -/
def dirCount (s : List (List Tok)) : Nat :=
  (s.map dirCountD).sum

/-- Termination measure of a preprocessor stack over an input of length
`N`: each remaining token costs 1 and each remaining directive token costs
`N + 1` more. -/
def ppMeasure (input : List Tok) (s : List (List Tok)) : Nat :=
  totalToks s + (input.length + 1) * dirCount s

/-- The body a ``​`define`` at input position `k` would store: the tokens
after the directive and the macro name, up to the next newline or line
comment. -/
def defineBodyAt (input : List Tok) (k : Nat) : List Tok :=
  (input.drop (k + 2)).takeWhile (fun t => !isNLCKind t.kind)

/-- The hypothesis of the amended termination claim: no ``​`define`` line of
the input stores a macro body containing a directive token. -/
def defineBodiesClean (input : List Tok) : Prop :=
  ∀ k < input.length,
    (input.drop k).head?.map Tok.kind = some (.directive "define") →
    (defineBodyAt input k).all (fun t => !isDirKind t.kind) = true

/-- Invariant on the macro table: every stored body is directive-free and
no longer than the input. -/
def MacrosClean (input : List Tok) (defs : List (String × Span × List Tok)) :
    Prop :=
  ∀ e ∈ defs, e.2.2.all (fun t => !isDirKind t.kind) = true ∧
    e.2.2.length ≤ input.length

/-- Popping a token costs exactly its measure contribution. -/
theorem nextRaw_measure :
    ∀ {s : List (List Tok)} {t : Tok} {s2 : List (List Tok)},
      nextRaw s = (some t, s2) →
      totalToks s = totalToks s2 + 1 ∧
        dirCount s = dirCount s2 + (if isDirKind t.kind then 1 else 0) := by
  intro s
  induction s with
  | nil =>
    intro t s2 h
    simp [nextRaw] at h
  | cons d rest ih =>
    intro t s2 h
    cases d with
    | nil =>
      rw [nextRaw] at h
      obtain ⟨h1, h2⟩ := ih h
      constructor
      · rw [show totalToks ([] :: rest) = totalToks rest from by
          simp [totalToks]]
        exact h1
      · rw [show dirCount ([] :: rest) = dirCount rest from by
          simp [dirCount, dirCountD]]
        exact h2
    | cons x xs =>
      rw [nextRaw] at h
      obtain ⟨h1, h2⟩ := Prod.mk.injEq .. ▸ h
      obtain rfl := Option.some_inj.mp h1
      subst h2
      constructor
      · simp [totalToks]
        omega
      · simp only [dirCount, dirCountD, List.map_cons, List.sum_cons,
          List.filter_cons]
        by_cases hdk : isDirKind x.kind = true
        · rw [if_pos hdk, if_pos hdk]
          simp
          try omega
        · rw [if_neg hdk, if_neg (by simpa using hdk)]
          simp
  
/-- Pushing a token back restores exactly its measure contribution. -/
theorem pushbackRaw_measure (t : Tok) (s : List (List Tok)) :
    totalToks (pushbackRaw t s) = totalToks s + 1 ∧
      dirCount (pushbackRaw t s) = dirCount s + (if isDirKind t.kind then 1 else 0) := by
  cases s with
  | nil =>
    constructor
    · simp [pushbackRaw, totalToks]
    · simp only [pushbackRaw, dirCount, dirCountD, List.map_cons,
        List.map_nil, List.sum_cons, List.sum_nil, List.filter_cons,
        List.filter_nil]
      by_cases hdk : isDirKind t.kind = true
      · rw [if_pos hdk, if_pos hdk]
        rfl
      · rw [if_neg hdk, if_neg hdk]
        rfl
  | cons d rest =>
    constructor
    · simp [pushbackRaw, totalToks]
      omega
    · simp only [pushbackRaw, dirCount, dirCountD, List.map_cons,
        List.sum_cons, List.filter_cons]
      by_cases hdk : isDirKind t.kind = true
      · rw [if_pos hdk, if_pos hdk]
        simp
        try omega
      · rw [if_neg hdk, if_neg hdk]
        simp
        try omega

/-- The empty stack has measure zero. -/
theorem ppMeasure_nil (input : List Tok) : ppMeasure input [] = 0 := by
  simp [ppMeasure, totalToks, dirCount]

/-- Measure ledger of a successful pop. -/
theorem ppMeasure_nextRaw (input : List Tok) {s : List (List Tok)} {t : Tok}
    {s2 : List (List Tok)} (h : nextRaw s = (some t, s2)) :
    ppMeasure input s = ppMeasure input s2 + 1 +
      (input.length + 1) * (if isDirKind t.kind then 1 else 0) := by
  obtain ⟨h1, h2⟩ := nextRaw_measure h
  simp only [ppMeasure, h1, h2, Nat.mul_add]
  ring

/-- Measure ledger of a pushback. -/
theorem ppMeasure_pushbackRaw (input : List Tok) (t : Tok)
    (s : List (List Tok)) :
    ppMeasure input (pushbackRaw t s) = ppMeasure input s + 1 +
      (input.length + 1) * (if isDirKind t.kind then 1 else 0) := by
  obtain ⟨h1, h2⟩ := pushbackRaw_measure t s
  simp only [ppMeasure, h1, h2, Nat.mul_add]
  ring

/-- `skip_tokens` never increases the measure. -/
theorem skipTokensF_measure {input : List Tok} :
    ∀ (fuel : Nat) (s : List (List Tok)),
      ppMeasure input (skipTokensF fuel s) ≤ ppMeasure input s := by
  intro fuel
  induction fuel with
  | zero => intro s; exact Nat.le_refl _
  | succ n ih =>
    intro s
    rw [skipTokensF]
    cases hn : nextRaw s with
    | mk o s2 =>
      cases o with
      | none =>
        obtain rfl := nextRaw_none hn
        rw [ppMeasure_nil]
        exact Nat.zero_le _
      | some t =>
        have hled := ppMeasure_nextRaw input hn
        cases hkind : t.kind
        case directive name =>
          simp only [hkind]
          by_cases hbr : isBranchingDirective name
          · rw [if_pos hbr]
            rw [ppMeasure_pushbackRaw input t s2, hled]
          · rw [if_neg hbr]
            exact (ih s2).trans (by omega)
        all_goals
          simp only [hkind]
          exact (ih s2).trans (by omega)

/-- `read_until_newline` never increases the measure. -/
theorem readUntilNewlineF_measure {input : List Tok} :
    ∀ (fuel : Nat) (s : List (List Tok)),
      ppMeasure input (readUntilNewlineF fuel s).2 ≤ ppMeasure input s := by
  intro fuel
  induction fuel with
  | zero => intro s; exact Nat.le_refl _
  | succ n ih =>
    intro s
    rw [readUntilNewlineF]
    cases hn : nextRaw s with
    | mk o s2 =>
      cases o with
      | none =>
        obtain rfl := nextRaw_none hn
        rw [ppMeasure_nil]
        exact Nat.zero_le _
      | some t =>
        have hled := ppMeasure_nextRaw input hn
        cases hkind : t.kind
        case newLine =>
          simp only [hkind]
          omega
        case lineComment =>
          simp only [hkind]
          omega
        all_goals
          simp only [hkind]
          exact (ih s2).trans (by omega)

/-- `expect_id` never increases the measure. -/
theorem expectId_measure (input : List Tok) (s : List (List Tok)) :
    ppMeasure input (expectId s).2 ≤ ppMeasure input s := by
  rw [expectId]
  cases hn : nextRaw s with
  | mk o s2 =>
    cases o with
    | none =>
      obtain rfl := nextRaw_none hn
      exact Nat.zero_le _
    | some t =>
      have hled := ppMeasure_nextRaw input hn
      cases t with
      | mk k sp =>
        cases k
        all_goals
          dsimp only
          exact Nat.le_of_lt (by omega)

/-- `skip_tokens` at its standard fuel never increases the measure. -/
theorem skipTokens_measure (input : List Tok) (s : List (List Tok)) :
    ppMeasure input (skipTokens s) ≤ ppMeasure input s :=
  skipTokensF_measure _ s

/-- `read_until_newline` at its standard fuel never increases the measure. -/
theorem readUntilNewline_measure (input : List Tok) (s : List (List Tok)) :
    ppMeasure input (readUntilNewline s).2 ≤ ppMeasure input s :=
  readUntilNewlineF_measure _ s

/-- `parse_ifdef` keeps the macro table and never increases the measure. -/
theorem parseIfdef_term (input : List Tok) (sp : Span) (cond : Bool)
    (st : PPState) :
    (parseIfdef sp cond st).macroDefs = st.macroDefs ∧
      ppMeasure input (parseIfdef sp cond st).stks ≤
        ppMeasure input st.stks := by
  have hep := expectId_measure input st.stks
  have hsk := skipTokens_measure input st.stks
  have hes := skipTokens_measure input (expectId st.stks).2
  rw [parseIfdef]
  split
  · exact ⟨rfl, hsk⟩
  · dsimp only
    split <;> split <;>
      first
        | exact ⟨rfl, hep⟩
        | exact ⟨rfl, hes.trans hep⟩

/-- `parse_elsif` keeps the macro table and never increases the measure. -/
theorem parseElsif_term (input : List Tok) (sp : Span) (st : PPState) :
    (parseElsif sp st).macroDefs = st.macroDefs ∧
      ppMeasure input (parseElsif sp st).stks ≤ ppMeasure input st.stks := by
  have hep := expectId_measure input st.stks
  have hsk := skipTokens_measure input st.stks
  have hes := skipTokens_measure input (expectId st.stks).2
  rw [parseElsif]
  split
  · exact ⟨rfl, Nat.le_refl _⟩
  · exact ⟨rfl, hsk⟩
  · exact ⟨rfl, hsk⟩
  · dsimp only
    split
    · exact ⟨rfl, hsk⟩
    · split <;> split <;>
        first
          | exact ⟨rfl, hep⟩
          | exact ⟨rfl, hes.trans hep⟩

/-- `parse_else` keeps the macro table and never increases the measure. -/
theorem parseElse_term (input : List Tok) (sp : Span) (st : PPState) :
    (parseElse sp st).macroDefs = st.macroDefs ∧
      ppMeasure input (parseElse sp st).stks ≤ ppMeasure input st.stks := by
  have hsk := skipTokens_measure input st.stks
  rw [parseElse]
  split
  · exact ⟨rfl, Nat.le_refl _⟩
  · exact ⟨rfl, hsk⟩
  · exact ⟨rfl, hsk⟩
  · dsimp only
    split
    · exact ⟨rfl, hsk⟩
    · exact ⟨rfl, Nat.le_refl _⟩

/-- `parse_endif` keeps the macro table and never increases the measure. -/
theorem parseEndif_term (input : List Tok) (sp : Span) (st : PPState) :
    (parseEndif sp st).macroDefs = st.macroDefs ∧
      ppMeasure input (parseEndif sp st).stks ≤ ppMeasure input st.stks := by
  have hsk := skipTokens_measure input st.stks
  rw [parseEndif]
  split
  · exact ⟨rfl, Nat.le_refl _⟩
  · split
    · exact ⟨rfl, hsk⟩
    · exact ⟨rfl, Nat.le_refl _⟩

/-- A `macroFind` hit is a member of the table. -/
theorem macroFind_mem :
    ∀ {defs : List (String × Span × List Tok)} {name : String}
      {v : Span × List Tok},
      macroFind defs name = some v → (name, v) ∈ defs := by
  intro defs
  induction defs with
  | nil =>
    intro name v h
    exact Option.noConfusion h
  | cons e rest ih =>
    intro name v h
    cases e with
    | mk n v2 =>
      rw [macroFind] at h
      by_cases hn : n = name
      · rw [if_pos hn] at h
        obtain rfl := Option.some_inj.mp h
        subst hn
        exact List.mem_cons_self _ _
      · rw [if_neg hn] at h
        exact List.mem_cons_of_mem _ (ih h)

/-- Inserting a clean, short body keeps the macro table clean. -/
theorem MacrosClean_insert {input : List Tok}
    {defs : List (String × Span × List Tok)} (hml : MacrosClean input defs)
    (name : String) (nsp : Span) {body : List Tok}
    (hclean : body.all (fun t => !isDirKind t.kind) = true)
    (hlen : body.length ≤ input.length) :
    MacrosClean input (macroInsert defs name (nsp, body)) := by
  intro e he
  rw [macroInsert] at he
  rcases List.mem_cons.mp he with rfl | he2
  · exact ⟨hclean, hlen⟩
  · exact hml e (List.mem_of_mem_filter he2)

/-- On a single-deque stack with enough fuel, `read_until_newline` collects
exactly the tokens before the first newline or line comment. -/
theorem readUntilNewlineF_fst :
    ∀ (l : List Tok) (fuel : Nat), l.length < fuel →
      (readUntilNewlineF fuel [l]).1 =
        l.takeWhile (fun t => !isNLCKind t.kind) := by
  intro l
  induction l with
  | nil =>
    intro fuel hf
    cases fuel with
    | zero => exact absurd hf (by omega)
    | succ n => rfl
  | cons t ts ih =>
    intro fuel hf
    cases fuel with
    | zero => exact absurd hf (by omega)
    | succ n =>
      rw [readUntilNewlineF]
      rw [show nextRaw [t :: ts] = (some t, [ts]) from rfl]
      dsimp only
      rw [List.takeWhile_cons]
      cases hkind : t.kind
      case newLine =>
        simp only [hkind]
        rfl
      case lineComment =>
        simp only [hkind]
        rfl
      all_goals
        simp only [hkind]
        rw [ih n (by simpa using hf)]
        rfl

/-- Dropping the head of a single-deque stack never increases the measure. -/
theorem ppMeasure_cons_single (input : List Tok) (x : Tok) (l : List Tok) :
    ppMeasure input [l] ≤ ppMeasure input [x :: l] := by
  simp only [ppMeasure, totalToks, dirCount, dirCountD, List.map_cons,
    List.map_nil, List.sum_cons, List.sum_nil, List.length_cons,
    List.filter_cons, Nat.add_zero]
  by_cases hdk : isDirKind x.kind = true
  · rw [if_pos hdk]
    simp only [List.length_cons, Nat.mul_add, Nat.mul_one]
    omega
  · rw [if_neg hdk]
    omega

/-- Measure ledger of pushing an expansion deque. -/
theorem ppMeasure_push (input : List Tok) (d : List Tok)
    (s : List (List Tok)) :
    ppMeasure input (d :: s) =
      ppMeasure input s + d.length + (input.length + 1) * dirCountD d := by
  simp only [ppMeasure, totalToks, dirCount, List.map_cons, List.sum_cons,
    Nat.mul_add]
  ring

/-- A directive-free deque keeps its directive count at zero under the
span rewrite of macro expansion. -/
theorem dirCountD_map_span (sp : Span) :
    ∀ (body : List Tok), body.all (fun t => !isDirKind t.kind) = true →
      dirCountD (body.map (fun t => { t with span := sp })) = 0 := by
  intro body
  induction body with
  | nil => intro _; rfl
  | cons b bs ih =>
    intro hclean
    simp only [List.all_cons, Bool.and_eq_true] at hclean
    obtain ⟨hb, hbs⟩ := hclean
    simp only [List.map_cons, dirCountD, List.filter_cons]
    rw [if_neg (by simpa using hb)]
    exact ih hbs

/-- `takeWhile` never lengthens a list. -/
theorem takeWhile_length_le (p : Tok → Bool) :
    ∀ l : List Tok, (l.takeWhile p).length ≤ l.length := by
  intro l
  induction l with
  | nil => exact Nat.le_refl _
  | cons a l ih =>
    rw [List.takeWhile_cons]
    by_cases hp : p a = true
    · rw [if_pos hp]
      simpa using ih
    · rw [if_neg hp]
      simp

/-- A successful `parse_define` acting on the single bottom deque of a
clean input keeps the macro table clean and never increases the measure:
the body it may store is the directive-free define body read off the
input. -/
theorem parseDefine_term {input : List Tok} {sp : Span} {k : Nat}
    {st st2 : PPState}
    (hb : st.stks = [List.drop (k + 1) input])
    (H : defineBodiesClean input)
    (hhead : (input.drop k).head?.map Tok.kind =
      some (.directive "define"))
    (hml : MacrosClean input st.macroDefs)
    (h : parseDefine sp st = some st2) :
    MacrosClean input st2.macroDefs ∧
      ppMeasure input st2.stks ≤ ppMeasure input st.stks := by
  have hk : k < input.length := by
    by_contra hk2
    rw [List.drop_eq_nil_of_le (Nat.le_of_not_lt hk2)] at hhead
    exact Option.noConfusion hhead
  rw [parseDefine, hb] at h
  cases hd1 : List.drop (k + 1) input with
  | nil =>
    rw [hd1] at h
    simp only [expectId, nextRaw, Option.some.injEq] at h
    subst h
    refine ⟨hml, ?_⟩
    exact (readUntilNewline_measure input _).trans
      ((Nat.le_of_eq (ppMeasure_nil input)).trans (Nat.zero_le _))
  | cons tok rest2 =>
    rw [hd1] at h
    have hrest2 : rest2 = List.drop (k + 2) input := by
      rw [← List.tail_drop]
      rw [hd1]
      rfl
    cases tok with
    | mk tk tsp =>
      cases htk : tk
      case id name =>
        subst htk
        simp only [expectId, nextRaw] at h
        by_cases hdir : isDirectiveName name = true
        · rw [if_pos hdir] at h
          simp only [Option.some.injEq] at h
          subst h
          refine ⟨hml, ?_⟩
          rw [hb, hd1]
          exact (readUntilNewline_measure input _).trans
            (ppMeasure_cons_single input _ rest2)
        · rw [if_neg hdir] at h
          cases rest2 with
          | nil => exact Option.noConfusion h
          | cons p ds =>
            simp only [] at h
            by_cases hp : (match p.kind with
                | TokKind.openParen => p.span.lo == tsp.hi
                | _ => false) = true
            · rw [if_pos hp] at h
              simp only [Option.some.injEq] at h
              subst h
              refine ⟨hml, ?_⟩
              rw [hb, hd1]
              exact ((ppMeasure_cons_single input p ds).trans
                (ppMeasure_cons_single input _ (p :: ds)))
            · rw [if_neg hp] at h
              have hbody : (readUntilNewline [p :: ds]).1 =
                  defineBodyAt input k := by
                rw [readUntilNewline]
                rw [readUntilNewlineF_fst (p :: ds) _ (by simp [totalToks])]
                rw [defineBodyAt, ← hrest2]
              have hclean : ((readUntilNewline [p :: ds]).1).all
                  (fun t => !isDirKind t.kind) = true := by
                rw [hbody]
                exact H k hk hhead
              have hlen : ((readUntilNewline [p :: ds]).1).length ≤
                  input.length := by
                rw [hbody, defineBodyAt]
                calc ((input.drop (k + 2)).takeWhile
                      (fun t => !isNLCKind t.kind)).length
                    ≤ (input.drop (k + 2)).length :=
                      takeWhile_length_le _ _
                  _ ≤ input.length := by
                      rw [List.length_drop]
                      omega
              have hmins := MacrosClean_insert hml name tsp hclean hlen
              have hmeas : ppMeasure input (readUntilNewline [p :: ds]).2 ≤
                  ppMeasure input st.stks := by
                rw [hb, hd1]
                exact (readUntilNewline_measure input _).trans
                  (ppMeasure_cons_single input _ (p :: ds))
              cases hm : macroFind st.macroDefs name with
              | none =>
                simp only [hm, Option.some.injEq] at h
                subst h
                exact ⟨hmins, hmeas⟩
              | some old =>
                cases old with
                | mk oldSp oldBody =>
                  simp only [hm, Option.some.injEq] at h
                  subst h
                  exact ⟨hmins, hmeas⟩
      all_goals
        subst htk
        simp only [expectId, nextRaw, Option.some.injEq] at h
        subst h
        refine ⟨hml, ?_⟩
        rw [hb, hd1]
        exact (readUntilNewline_measure input _).trans
          (ppMeasure_cons_single input _ rest2)

/-- A non-panicking `process_directive` on the single bottom deque of a
clean input keeps the macro table clean and increases the measure by at
most the input length (the cost of the one possible expansion push). -/
theorem processDirective_term {input : List Tok} {name : String} {sp : Span}
    {afterNL : Bool} {st st2 : PPState} {k : Nat}
    (hb : st.stks = [List.drop (k + 1) input])
    (H : defineBodiesClean input)
    (hhead : (input.drop k).head?.map Tok.kind = some (.directive name))
    (hml : MacrosClean input st.macroDefs)
    (h : processDirective name sp afterNL st = some st2) :
    MacrosClean input st2.macroDefs ∧
      ppMeasure input st2.stks ≤ ppMeasure input st.stks + input.length := by
  rw [processDirective] at h
  by_cases h1 : name = "resetall"
  · rw [if_pos h1] at h
    simp only [Option.some.injEq] at h
    subst h
    exact ⟨hml, Nat.le_add_right _ _⟩
  · rw [if_neg h1] at h
    by_cases h2 : name = "include"
    · rw [if_pos h2] at h
      simp only [Option.some.injEq] at h
      subst h
      cases afterNL <;> exact ⟨hml, Nat.le_add_right _ _⟩
    · rw [if_neg h2] at h
      by_cases h3 : name = "define"
      · rw [if_pos h3] at h
        subst h3
        obtain ⟨m1, m2⟩ := parseDefine_term hb H hhead hml h
        exact ⟨m1, m2.trans (Nat.le_add_right _ _)⟩
      · rw [if_neg h3] at h
        by_cases h4 : name = "undef"
        · rw [if_pos h4] at h
          simp only [Option.some.injEq] at h
          subst h
          exact ⟨hml, Nat.le_add_right _ _⟩
        · rw [if_neg h4] at h
          by_cases h5 : name = "undefineall"
          · rw [if_pos h5] at h
            simp only [Option.some.injEq] at h
            subst h
            exact ⟨hml, Nat.le_add_right _ _⟩
          · rw [if_neg h5] at h
            by_cases h6 : name = "ifdef"
            · rw [if_pos h6] at h
              simp only [Option.some.injEq] at h
              subst h
              obtain ⟨he, hm2⟩ := parseIfdef_term input sp true st
              refine ⟨by rw [he]; exact hml, hm2.trans (Nat.le_add_right _ _)⟩
            · rw [if_neg h6] at h
              by_cases h7 : name = "ifndef"
              · rw [if_pos h7] at h
                simp only [Option.some.injEq] at h
                subst h
                obtain ⟨he, hm2⟩ := parseIfdef_term input sp false st
                refine ⟨by rw [he]; exact hml, hm2.trans (Nat.le_add_right _ _)⟩
              · rw [if_neg h7] at h
                by_cases h8 : name = "else"
                · rw [if_pos h8] at h
                  simp only [Option.some.injEq] at h
                  subst h
                  obtain ⟨he, hm2⟩ := parseElse_term input sp st
                  refine ⟨by rw [he]; exact hml, hm2.trans (Nat.le_add_right _ _)⟩
                · rw [if_neg h8] at h
                  by_cases h9 : name = "elsif"
                  · rw [if_pos h9] at h
                    simp only [Option.some.injEq] at h
                    subst h
                    obtain ⟨he, hm2⟩ := parseElsif_term input sp st
                    refine ⟨by rw [he]; exact hml, hm2.trans (Nat.le_add_right _ _)⟩
                  · rw [if_neg h9] at h
                    by_cases h10 : name = "endif"
                    · rw [if_pos h10] at h
                      simp only [Option.some.injEq] at h
                      subst h
                      obtain ⟨he, hm2⟩ := parseEndif_term input sp st
                      refine ⟨by rw [he]; exact hml, hm2.trans (Nat.le_add_right _ _)⟩
                    · rw [if_neg h10] at h
                      by_cases h11 : name = "timescale" ∨ name = "default_nettype"
                          ∨ name = "unconnected_drive" ∨ name = "nounconnected_drive"
                          ∨ name = "celldefine" ∨ name = "endcelldefine" ∨ name = "pragma"
                          ∨ name = "line" ∨ name = "__FILE__" ∨ name = "__LINE__"
                          ∨ name = "begin_keywords" ∨ name = "end_keywords"
                      · rw [if_pos h11] at h
                        simp only [Option.some.injEq] at h
                        subst h
                        exact ⟨hml, Nat.le_add_right _ _⟩
                      · rw [if_neg h11] at h
                        cases hm : macroFind st.macroDefs name with
                        | none =>
                          simp only [hm, Option.some.injEq] at h
                          subst h
                          exact ⟨hml, Nat.le_add_right _ _⟩
                        | some bd =>
                          cases bd with
                          | mk spd body =>
                            simp only [hm, Option.some.injEq] at h
                            subst h
                            obtain ⟨hclean, hlen⟩ := hml (name, spd, body) (macroFind_mem hm)
                            have hlen2 : body.length ≤ input.length := hlen
                            have h0 := dirCountD_map_span sp body hclean
                            refine ⟨hml, ?_⟩
                            rw [show ({ st with
                                  stks := List.map (fun t => { t with span := sp }) body :: st.stks
                                } : PPState).stks
                                = List.map (fun t => { t with span := sp }) body :: st.stks from rfl]
                            rw [ppMeasure_push, h0, List.length_map]
                            simp only [Nat.mul_zero, Nat.add_zero]
                            omega

/-- With clean define bodies, `process` with fuel beyond the measure cannot
run out of fuel, and an emitted token strictly decreases the measure while
preserving the cleanliness invariants. -/
theorem process_term {input : List Tok} (H : defineBodiesClean input) :
    ∀ (m : Nat) (b : Bool) (st : PPState),
      StacksP (fun t => isDirKind t.kind = false) input st.stks →
      MacrosClean input st.macroDefs →
      ppMeasure input st.stks ≤ m →
      process (m + 1) b st ≠ .fuelOut ∧
      (∀ t st2, process (m + 1) b st = .ok (some t) st2 →
        StacksP (fun t2 => isDirKind t2.kind = false) input st2.stks ∧
        MacrosClean input st2.macroDefs ∧
        ppMeasure input st2.stks < ppMeasure input st.stks) := by
  intro m
  induction m with
  | zero =>
    intro b st hok hml hm
    cases hn : nextRaw st.stks with
    | mk o stks' =>
      cases o with
      | some t =>
        exfalso
        obtain ⟨h1, _⟩ := nextRaw_measure hn
        have hge : 1 ≤ ppMeasure input st.stks := by
          simp only [ppMeasure]
          omega
        omega
      | none =>
        constructor
        · intro hcon
          rw [process] at hcon
          simp only [hn] at hcon
          exact PPRes.noConfusion hcon
        · intro t st2 hcon
          rw [process] at hcon
          simp only [hn] at hcon
          injection hcon with hc1 hc2
          exact Option.noConfusion hc1
  | succ m ih =>
    intro b st hok hml hm
    cases hn : nextRaw st.stks with
    | mk o stks' =>
      cases o with
      | none =>
        constructor
        · intro hcon
          rw [process] at hcon
          simp only [hn] at hcon
          exact PPRes.noConfusion hcon
        · intro t st2 hcon
          rw [process] at hcon
          simp only [hn] at hcon
          injection hcon with hc1 hc2
          exact Option.noConfusion hc1
      | some t =>
        obtain ⟨hok2, hsuf, hd⟩ := nextRaw_ok hok hn
        have hled := ppMeasure_nextRaw input hn
        have hstEq : ppMeasure input
            (({ st with stks := stks' } : PPState).stks) =
            ppMeasure input stks' := rfl
        cases hkind : t.kind
        case newLine =>
          rw [process]
          simp only [hn, hkind]
          have hled2 : ppMeasure input st.stks = ppMeasure input stks' + 1 := by
            rw [hled, hkind]
            simp [isDirKind]
          obtain ⟨ih1, ih2⟩ := ih true { st with stks := stks' } hok2 hml
            (by omega)
          refine ⟨ih1, fun t2 st2 hcon => ?_⟩
          obtain ⟨a1, a2, a3⟩ := ih2 t2 st2 hcon
          exact ⟨a1, a2, by omega⟩
        case lineComment =>
          rw [process]
          simp only [hn, hkind]
          have hled2 : ppMeasure input st.stks = ppMeasure input stks' + 1 := by
            rw [hled, hkind]
            simp [isDirKind]
          obtain ⟨ih1, ih2⟩ := ih true { st with stks := stks' } hok2 hml
            (by omega)
          refine ⟨ih1, fun t2 st2 hcon => ?_⟩
          obtain ⟨a1, a2, a3⟩ := ih2 t2 st2 hcon
          exact ⟨a1, a2, by omega⟩
        case directive name =>
          have hcontr : isDirKind t.kind = true := by
            rw [hkind]
            rfl
          rcases hd with ⟨d, tail, heq, hne, hP, hbot⟩ | ⟨b2, hshape, hcons⟩
          · rw [hP] at hcontr
            exact Bool.noConfusion hcontr
          · obtain ⟨k, hk⟩ := StacksP_botOf hok
            have hcons2 : t :: b2 = List.drop k input := by
              rw [hcons, hk]
            have hb2 : b2 = List.drop (k + 1) input := by
              rw [← List.tail_drop, ← hcons2]
              rfl
            have hhead : (input.drop k).head?.map Tok.kind =
                some (TokKind.directive name) := by
              rw [← hcons2]
              simp [hkind]
            rw [process]
            simp only [hn, hkind]
            cases hpd : processDirective name t.span b
                { st with stks := stks' } with
            | none =>
              simp only [hpd]
              constructor
              · intro hcon
                exact PPRes.noConfusion hcon
              · intro t2 st2 hcon
                exact PPRes.noConfusion hcon
            | some st3 =>
              simp only [hpd]
              have hb : ({ st with stks := stks' } : PPState).stks =
                  [List.drop (k + 1) input] := by
                rw [show ({ st with stks := stks' } : PPState).stks = stks'
                  from rfl]
                rw [hshape, hb2]
              obtain ⟨hml3, hm3⟩ := processDirective_term hb H hhead hml hpd
              have hexp : ∀ spd body,
                  macroFind ({ st with stks := stks' } : PPState).macroDefs
                    name = some (spd, body) →
                  ∀ t2 ∈ body, (fun t3 => isDirKind t3.kind = false)
                    { t2 with span := t.span } := by
                intro spd body hmf t2 ht2
                obtain ⟨hcl, _⟩ := hml (name, spd, body) (macroFind_mem hmf)
                have hcl2 : body.all (fun t3 => !isDirKind t3.kind) = true :=
                  hcl
                have hval := List.all_eq_true.mp hcl2 t2 ht2
                simpa using hval
              have hsne : stks' ≠ [] := by
                rw [hshape]
                exact List.cons_ne_nil _ _
              obtain ⟨hok3, _⟩ := processDirective_ok hok2 hsne hexp hpd
              have hled2 : ppMeasure input st.stks =
                  ppMeasure input stks' + 1 + (input.length + 1) := by
                rw [hled, hkind]
                simp [isDirKind]
              obtain ⟨ih1, ih2⟩ := ih false st3 hok3 hml3 (by omega)
              refine ⟨ih1, fun t2 st2 hcon => ?_⟩
              obtain ⟨a1, a2, a3⟩ := ih2 t2 st2 hcon
              exact ⟨a1, a2, by omega⟩
        all_goals
          rw [process]
          simp only [hn, hkind]
          have hled2 : ppMeasure input st.stks = ppMeasure input stks' + 1 := by
            rw [hled, hkind]
            simp [isDirKind]
          constructor
          · intro hcon
            exact PPRes.noConfusion hcon
          · intro t2 st2 hcon
            injection hcon with hc1 hc2
            injection hc1 with hc1
            subst hc1
            subst hc2
            exact ⟨hok2, hml, by omega⟩

/-- With clean define bodies, `all` with fuel beyond the measure of the
initial stack cannot run out of fuel. -/
theorem allF_term {input : List Tok} (H : defineBodiesClean input) :
    ∀ (m : Nat) (st : PPState),
      StacksP (fun t => isDirKind t.kind = false) input st.stks →
      MacrosClean input st.macroDefs →
      ppMeasure input st.stks < m →
      allF m st ≠ .fuelOut := by
  intro m
  induction m with
  | zero =>
    intro st _ _ hm
    exact absurd hm (by omega)
  | succ m ih =>
    intro st hok hml hm
    obtain ⟨hp1, hp2⟩ := process_term H m false st hok hml (by omega)
    intro hcon
    rw [allF] at hcon
    cases hp : process (m + 1) false st with
    | fuelOut => exact hp1 hp
    | panicked =>
      simp only [hp] at hcon
      exact AllRes.noConfusion hcon
    | ok o st3 =>
      cases o with
      | none =>
        simp only [hp] at hcon
        exact AllRes.noConfusion hcon
      | some t =>
        obtain ⟨a1, a2, a3⟩ := hp2 t st3 hp
        simp only [hp] at hcon
        cases ha : allF m st3 with
        | fuelOut => exact ih st3 a1 a2 (by omega) ha
        | panicked =>
          simp only [ha] at hcon
          exact AllRes.noConfusion hcon
        | ok toks st4 =>
          simp only [ha] at hcon
          exact AllRes.noConfusion hcon

/-- **C5 (amended).** The preprocessor does NOT terminate on every input —
`pp_self_macro_diverges` exhibits divergence when a macro body invokes the
macro itself.  Termination does hold, with fuel quadratic in the input
length, whenever no ``​`define`` line stores a body containing a directive
token: then `pp` never runs out of fuel (its run ends in a result or in
one of the modelled panics). -/
theorem pp_terminates_of_clean_defines (input : List Tok)
    (H : defineBodiesClean input) :
    pp ((input.length + 1) * (input.length + 1) + 1) input ≠ .fuelOut := by
  rw [pp]
  apply allF_term H
  · exact ⟨0, rfl⟩
  · intro e he
    exact absurd he (List.not_mem_nil e)
  · rw [show (ppInit input).stks = [input] from rfl]
    have h0 : totalToks [input] = input.length := by
      simp [totalToks]
    have h1 : (input.length + 1) * dirCount [input] ≤
        (input.length + 1) * input.length := by
      apply Nat.mul_le_mul_left
      have : dirCount [input] = dirCountD input := by
        simp [dirCount]
      rw [this, dirCountD]
      exact List.length_filter_le _ _
    have h2 : (input.length + 1) * (input.length + 1) =
        (input.length + 1) * input.length + (input.length + 1) :=
      Nat.mul_succ _ _
    simp only [ppMeasure, h0]
    omega

/-- Lexed form of ``​`define A 1`` followed by an invocation ``​`A``: a
directive-free macro body, input for the termination witness. -/
def cleanTermInput : List Tok :=
  [⟨.directive "define", ⟨0, 7⟩⟩, ⟨.id "A", ⟨8, 9⟩⟩, ⟨.intLit 1, ⟨10, 11⟩⟩,
   ⟨.newLine, ⟨11, 12⟩⟩, ⟨.directive "A", ⟨13, 15⟩⟩]

/-- Witness for `pp_terminates_of_clean_defines` on a concrete define and
expansion. -/
theorem pp_terminates_of_clean_defines_witness :
    pp 37 cleanTermInput ≠ .fuelOut :=
  pp_terminates_of_clean_defines cleanTermInput
    (by unfold defineBodiesClean; decide)

end SvElaborator
